import Mathlib

set_option linter.unusedVariables false

/-!
Verification development for the incremental decoding core of
`src/XLM/src/model/transformer.py` (TransCoder).

The numeric backend (matrix multiplies, softmax, dropout) is opaque per the
design document; scores produced by the network are therefore modelled as
abstract rational-valued oracles, and tensors are modelled at the level the
claims speak about: token contents, shapes, batch rows and time lengths.
Floating-point values are embedded as `ℚ`; the float exponentiation
`length ** length_penalty` is embedded as an abstract map `lengthNorm : ℕ → ℚ`
(sending a length to its normalizer), which contains the integer-exponent case
`fun l => (l : ℚ) ^ p` and keeps every definition executable.
-/

namespace TransCoder

attribute [local semireducible] Rat.mul Rat.inv Rat.add Rat.sub

/-! ### Hypothesis pool (`class BeamHypotheses`) -/

/-- State of `BeamHypotheses`: `hyp` is the list of (normalized score, token
sequence) pairs in insertion order, `worst_score` the tracked minimum.
`lengthNorm` embeds `fun l => l ** length_penalty`. -/
structure BeamHypotheses where
  n_hyp : ℕ
  max_len : ℕ
  lengthNorm : ℕ → ℚ
  early_stopping : Bool
  hyp : List (ℚ × List ℕ)
  worst_score : ℚ

/-- `BeamHypotheses.__init__`: note the source stores `max_len - 1`
(ignoring the BOS position) and starts the worst score at `1e9`. -/
def mkBeamHypotheses (n_hyp max_len : ℕ) (lengthNorm : ℕ → ℚ) (early_stopping : Bool) :
    BeamHypotheses :=
  { n_hyp := n_hyp
    max_len := max_len - 1
    lengthNorm := lengthNorm
    early_stopping := early_stopping
    hyp := []
    worst_score := 10 ^ 9 }

/-- Python's tuple order on `(score, index)` pairs, as used by
`sorted([(s, idx) for idx, (s, _) in enumerate(self.hyp)])`. -/
def poolLe (a b : ℚ × ℕ) : Prop :=
  a.1 < b.1 ∨ (a.1 = b.1 ∧ a.2 ≤ b.2)

instance : DecidableRel poolLe := fun a b =>
  inferInstanceAs (Decidable (_ ∨ _))

instance : IsTotal (ℚ × ℕ) poolLe where
  total a b := by
    rcases lt_trichotomy a.1 b.1 with h | h | h
    · exact Or.inl (Or.inl h)
    · rcases Nat.le_total a.2 b.2 with h2 | h2
      · exact Or.inl (Or.inr ⟨h, h2⟩)
      · exact Or.inr (Or.inr ⟨h.symm, h2⟩)
    · exact Or.inr (Or.inl h)

instance : IsTrans (ℚ × ℕ) poolLe where
  trans a b c hab hbc := by
    rcases hab with hab | ⟨hab1, hab2⟩
    · rcases hbc with hbc | ⟨hbc1, hbc2⟩
      · exact Or.inl (hab.trans hbc)
      · exact Or.inl (hbc1 ▸ hab)
    · rcases hbc with hbc | ⟨hbc1, hbc2⟩
      · exact Or.inl (hab1 ▸ hbc)
      · exact Or.inr ⟨hab1.trans hbc1, hab2.trans hbc2⟩

/-- The `[(s, idx) for idx, (s, _) in enumerate(self.hyp)]` list. -/
def indexedScores (l : List (ℚ × List ℕ)) : List (ℚ × ℕ) :=
  (l.map Prod.fst).zip (List.range l.length)

/-- `BeamHypotheses.add`: insert when the pool is not full or the normalized
score beats the tracked worst; on overflow delete the entry found first in the
sorted `(score, index)` list and track the next one's score. -/
def BeamHypotheses.add (b : BeamHypotheses) (hyp : List ℕ) (sum_logprobs : ℚ) :
    BeamHypotheses :=
  if b.hyp.length < b.n_hyp ∨ b.worst_score < sum_logprobs / b.lengthNorm hyp.length then
    if b.n_hyp < (b.hyp ++ [(sum_logprobs / b.lengthNorm hyp.length, hyp)]).length then
      { b with
        hyp := (b.hyp ++ [(sum_logprobs / b.lengthNorm hyp.length, hyp)]).eraseIdx
          ((List.insertionSort poolLe
            (indexedScores (b.hyp ++ [(sum_logprobs / b.lengthNorm hyp.length, hyp)]))).headD
              (0, 0)).2
        worst_score := ((List.insertionSort poolLe
          (indexedScores (b.hyp ++ [(sum_logprobs / b.lengthNorm hyp.length, hyp)]))).getD
            1 (0, 0)).1 }
    else
      { b with
        hyp := b.hyp ++ [(sum_logprobs / b.lengthNorm hyp.length, hyp)]
        worst_score := min (sum_logprobs / b.lengthNorm hyp.length) b.worst_score }
  else b

/-- `BeamHypotheses.is_done`. -/
def BeamHypotheses.is_done (b : BeamHypotheses) (best_sum_logprobs : ℚ) : Bool :=
  if b.hyp.length < b.n_hyp then false
  else if b.early_stopping then true
  else decide (best_sum_logprobs / b.lengthNorm b.max_len ≤ b.worst_score)

/-- A sequence of `add` calls folded over a pool. -/
def addList (b : BeamHypotheses) : List (List ℕ × ℚ) → BeamHypotheses
  | [] => b
  | op :: ops => addList (b.add op.1 op.2) ops

/-- Reachability invariant of a pool: bounded size, the `1e9` sentinel before
the first insertion, and the tracked worst score is the minimum retained
normalized score. -/
def poolInv (b : BeamHypotheses) : Prop :=
  b.hyp.length ≤ b.n_hyp ∧
  (b.hyp = [] → b.worst_score = 10 ^ 9) ∧
  (b.hyp ≠ [] → b.worst_score ∈ b.hyp.map Prod.fst ∧
    ∀ x ∈ b.hyp.map Prod.fst, b.worst_score ≤ x)

/-! ### Masking utility (`get_masks`) -/

/-- `get_masks slen lengths causal`: the `(B, L)` validity mask `mask b t`
(true iff `t < lengths[b]`) and the attention mask.  With `causal` the
attention mask is the `(B, L, L)` lower-triangular comparison `k ≤ q`
(`alen[None, None, :] <= alen[None, :, None]`); otherwise the validity mask
itself, broadcast over query positions.  The source asserts
`lengths.max() <= slen`; inputs violating it raise and are excluded by the
hypotheses of the theorems below. -/
def get_masks (slen : ℕ) (lengths : List ℕ) (causal : Bool) :
    (ℕ → ℕ → Bool) × (ℕ → ℕ → ℕ → Bool) :=
  (fun b t => decide (t < lengths.getD b 0),
   if causal then fun b q k => decide (k ≤ q)
   else fun b q k => decide (k < lengths.getD b 0))

/-! ### Attention cache (`self.cache`) at the shape level -/

/-- One cached key/value entry of a layer: which batch rows it holds
(identified by the originating batch element) and the shared time-axis
length of the cached `k`/`v` tensors. -/
structure CacheEntry where
  rows : List ℕ
  tlen : ℕ

/-- The decoder cache: the single shared `slen` scalar plus one optional
entry per attention module.  Self-attention modules and cross-attention
modules receive distinct `layer_id` keys from the global counter in the
source, so the two families are kept apart. -/
structure Cache where
  slen : ℕ
  self_entries : ℕ → Option CacheEntry
  cross_entries : ℕ → Option CacheEntry

def empty_cache : Cache :=
  { slen := 0, self_entries := fun _ => none, cross_entries := fun _ => none }

/-- Cache effect and output time dimension of one `fwd` call with
`use_cache=True` over `n_layers` decoder layers.  The token input `x` covers
`x_len` time steps of the `active` batch rows; `fwd` slices off the
`cache['slen']` already-processed steps (`_slen = slen - self.cache['slen']`),
each self-attention concatenates the new keys/values onto its entry along the
time axis (or creates the entry), each cross-attention computes its entry
once from the `src_time`-step source encoding and then reuses it verbatim,
and finally `self.cache['slen']` grows by the number of new steps.  Returns
the updated cache and `tensor.size(1)`, the output time dimension. -/
def fwd_cache (n_layers x_len : ℕ) (active : List ℕ) (src_time : ℕ) (c : Cache) :
    Cache × ℕ :=
  ({ slen := c.slen + (x_len - c.slen)
     self_entries := fun i =>
       if i < n_layers then
         match c.self_entries i with
         | some e => some ⟨e.rows, e.tlen + (x_len - c.slen)⟩
         | none => some ⟨active, x_len - c.slen⟩
       else c.self_entries i
     cross_entries := fun i =>
       if i < n_layers then
         match c.cross_entries i with
         | some e => some e
         | none => some ⟨active, src_time⟩
       else c.cross_entries i },
   x_len - c.slen)

/-! ### Greedy / sampling decoding (`TransformerModel.generate`)

The network and prediction layer are the opaque numeric backend: `score s pre
w` is the raw prediction-layer score the model assigns to word `w` for batch
element `s` whose generated tokens so far are `pre`.  A row's scores depend
only on that row's tokens and source encoding, which is what lets them be
modelled per sentence. -/

/-- Comparison used to model `torch.topk` selection on `(value, index)`
pairs: by value descending, ties broken toward the lower index. -/
def candLe (a b : ℚ × ℕ) : Prop :=
  b.1 < a.1 ∨ (a.1 = b.1 ∧ a.2 ≤ b.2)

instance : DecidableRel candLe := fun a b =>
  inferInstanceAs (Decidable (_ ∨ _))

instance : IsTotal (ℚ × ℕ) candLe where
  total a b := by
    rcases lt_trichotomy a.1 b.1 with h | h | h
    · exact Or.inr (Or.inl h)
    · rcases Nat.le_total a.2 b.2 with h2 | h2
      · exact Or.inl (Or.inr ⟨h, h2⟩)
      · exact Or.inr (Or.inr ⟨h.symm, h2⟩)
    · exact Or.inl (Or.inl h)

instance : IsTrans (ℚ × ℕ) candLe where
  trans a b c hab hbc := by
    rcases hab with hab | ⟨hab1, hab2⟩
    · rcases hbc with hbc | ⟨hbc1, hbc2⟩
      · exact Or.inl (hbc.trans hab)
      · exact Or.inl (hbc1 ▸ hab)
    · rcases hbc with hbc | ⟨hbc1, hbc2⟩
      · exact Or.inl (hab1 ▸ hbc)
      · exact Or.inr ⟨hab1.trans hbc1, hab2.trans hbc2⟩

/-- Top-`k` `(value, index)` pairs of `g` on `[0, m)`, best first: models
`torch.topk(..., k, largest=True, sorted=True)` with a deterministic
tie-break toward lower indices. -/
def topCands (g : ℕ → ℚ) (m k : ℕ) : List (ℚ × ℕ) :=
  (List.insertionSort candLe ((List.range m).map (fun i => (g i, i)))).take k

/-- Parameters of a `generate` call.  `sample` is `none` for greedy arg-max
selection (`sample_temperature=None`), or `some draw` where `draw s t` is the
abstract outcome of the multinomial draw for row `s` at step `t`. -/
structure GenParams where
  bs : ℕ
  n_words : ℕ
  eos_index : ℕ
  pad_index : ℕ
  n_layers : ℕ
  src_time : ℕ
  global_max_len : ℕ
  max_lengths : ℕ → ℕ
  score : ℕ → List ℕ → ℕ → ℚ
  sample : Option (ℕ → ℕ → ℕ)

/-- Next-word selection of `generate`: `torch.topk(scores, 1)` in greedy
mode, the abstract sampling outcome otherwise. -/
def next_word (P : GenParams) (s t : ℕ) (pre : List ℕ) : ℕ :=
  match P.sample with
  | none => ((topCands (P.score s pre) P.n_words 1).headD (0, 0)).2
  | some draw => draw s t

/-- Loop state of `generate`: the `generated` buffer (one column of length
`global_max_len` per sentence), `gen_len`, the unfinished flags of this and
the previous iteration, the cache, and `cur_len`. -/
structure GenState where
  generated : ℕ → List ℕ
  gen_len : ℕ → ℕ
  unfinished : ℕ → Bool
  prev_unfinished : ℕ → Bool
  cache : Cache
  cur_len : ℕ

/-- Indices of the active (unfinished) sentences, in order. -/
def activeIds (bs : ℕ) (uf : ℕ → Bool) : List ℕ :=
  (List.range bs).filter (fun j => uf j)

/-- Boolean-mask row selection `cached_tensor[restricted_mask]`. -/
def maskFilter (rows : List ℕ) (keep : List Bool) : List ℕ :=
  ((rows.zip keep).filter (fun p => p.2)).map Prod.fst

def entry_filter (keep : List Bool) : Option CacheEntry → Option CacheEntry
  | some e => some ⟨maskFilter e.rows keep, e.tlen⟩
  | none => none

/-- The active-mask cache restriction of the `generate` loop: when the
unfinished mask changed, every integer-keyed cache entry is re-filtered by
`restricted_mask = unfinished_mask[previous_unfinished_mask]`. -/
def generate_cache_filter (P : GenParams) (st : GenState) : Cache :=
  if (List.range P.bs).any (fun j => st.unfinished j != st.prev_unfinished j) then
    { st.cache with
      self_entries := fun i =>
        entry_filter ((activeIds P.bs st.prev_unfinished).map st.unfinished)
          (st.cache.self_entries i)
      cross_entries := fun i =>
        entry_filter ((activeIds P.bs st.prev_unfinished).map st.unfinished)
          (st.cache.cross_entries i) }
  else st.cache

/-- One iteration of the `generate` loop body: restrict the cache to the
active rows, run `fwd` (cache effect) on the full generated `[:cur_len]`
token batch of the active rows, then per sentence write the selected word
(forcing `eos` at the per-sentence maximum length), bump `gen_len` of
unfinished sentences, and clear the unfinished flag on `eos` emission or
maximum length. -/
def generate_step (P : GenParams) (st : GenState) : GenState :=
  let cache1 := generate_cache_filter P st
  let fwdres := fwd_cache P.n_layers st.cur_len (activeIds P.bs st.unfinished)
    P.src_time cache1
  let upd : ℕ → List ℕ × (ℕ × Bool) := fun s =>
    if st.unfinished s then
      ((st.generated s).set st.cur_len
          (if P.max_lengths s = st.cur_len + 1 then P.eos_index
           else next_word P s st.cur_len ((st.generated s).take st.cur_len)),
       (st.gen_len s + 1,
        !(decide (next_word P s st.cur_len ((st.generated s).take st.cur_len) =
            P.eos_index)) &&
          !(decide (P.max_lengths s = st.cur_len + 1))))
    else (st.generated s, (st.gen_len s, false))
  { generated := fun s => (upd s).1
    gen_len := fun s => (upd s).2.1
    unfinished := fun s => (upd s).2.2
    prev_unfinished := st.unfinished
    cache := fwdres.1
    cur_len := st.cur_len + 1 }

/-- Initial state of `generate`: a pad-filled buffer whose first time step is
the `eos` marker used as `bos`, lengths 1, all sentences unfinished, a fresh
cache with `slen = 0`, `cur_len = 1`. -/
def generate_start (P : GenParams) : GenState :=
  { generated := fun _ => (List.replicate P.global_max_len P.pad_index).set 0 P.eos_index
    gen_len := fun _ => 1
    unfinished := fun _ => true
    prev_unfinished := fun _ => true
    cache := empty_cache
    cur_len := 1 }

/-- The `while cur_len < global_max_len` loop of `generate`, breaking early
once every sentence is finished. -/
def generate_loop (P : GenParams) : ℕ → GenState → GenState
  | 0, st => st
  | fuel + 1, st =>
    if st.cur_len < P.global_max_len then
      if (List.range P.bs).all (fun s => !(generate_step P st).unfinished s) then
        generate_step P st
      else generate_loop P fuel (generate_step P st)
    else st

/-- `TransformerModel.generate`: returns `generated[:cur_len]` (per-sentence
columns truncated at the final `cur_len`) and the per-sentence lengths. -/
def generate (P : GenParams) : (ℕ → List ℕ) × (ℕ → ℕ) :=
  ((fun s =>
      ((generate_loop P P.global_max_len (generate_start P)).generated s).take
        (generate_loop P P.global_max_len (generate_start P)).cur_len),
   (generate_loop P P.global_max_len (generate_start P)).gen_len)

/-- Pure iteration of the loop body (the loop visits exactly these states). -/
def gen_iter (P : GenParams) : ℕ → GenState
  | 0 => generate_start P
  | k + 1 => generate_step P (gen_iter P k)

/-! Per-sentence anchor of the `generate` loop: because each batch row's
scores depend only on that row's tokens, the loop acts independently per
sentence on the token level; `prun P s t` is the (written tokens, unfinished
flag) pair of sentence `s` on entry to the loop iteration with
`cur_len = t + 1`. -/

def prun (P : GenParams) (s : ℕ) : ℕ → List ℕ × Bool
  | 0 => ([P.eos_index], true)
  | t + 1 =>
    if (prun P s t).2 then
      ((prun P s t).1 ++
         [if P.max_lengths s = t + 2 then P.eos_index
          else next_word P s (t + 1) (prun P s t).1],
       !(decide (next_word P s (t + 1) (prun P s t).1 = P.eos_index)) &&
         !(decide (P.max_lengths s = t + 2)))
    else prun P s t

/-- The batch loop state agrees with the per-sentence anchor `prun` on entry
to iteration `cur_len = t + 1`. -/
def GenRel (P : GenParams) (t : ℕ) (st : GenState) : Prop :=
  st.cur_len = t + 1 ∧
  ∀ s, s < P.bs →
    st.unfinished s = (prun P s t).2 ∧
    st.gen_len s = (prun P s t).1.length ∧
    st.generated s = (prun P s t).1 ++
      List.replicate (P.global_max_len - (prun P s t).1.length) P.pad_index

/-- Rows stored in the cache are exactly the active rows of the iteration
that produced them (recorded in `prev_unfinished`), and the active set only
shrinks. -/
def cacheRowsInv (P : GenParams) (st : GenState) : Prop :=
  (∀ i e, st.cache.self_entries i = some e →
    e.rows = activeIds P.bs st.prev_unfinished) ∧
  (∀ i e, st.cache.cross_entries i = some e →
    e.rows = activeIds P.bs st.prev_unfinished) ∧
  (∀ s, st.unfinished s = true → st.prev_unfinished s = true)

/-! ### Beam-search decoding (`TransformerModel.generate_beam`)

`lsm s pre w` is the log-softmax score (`F.log_softmax` of the prediction
layer) the model assigns to word `w` for a row holding tokens `pre` of
sentence `s` — the opaque numeric backend, as for `generate`.  A vector
`max_len` input only contributes its maximum in the source, so the embedding
takes `global_max_len` directly.  The cache reindexing `generated[:, beam_idx]`
companion (lines 770-773) has no effect on the tokens produced at this level
and is not tracked. -/

structure BeamParams where
  bs : ℕ
  beam_size : ℕ
  n_words : ℕ
  eos_index : ℕ
  pad_index : ℕ
  global_max_len : ℕ
  lengthNorm : ℕ → ℚ
  early_stopping : Bool
  lsm : ℕ → List ℕ → ℕ → ℚ

/-- Loop state of `generate_beam`: the generated buffer (one column per flat
`sent * beam_size + beam` index), flat running beam scores, per-sentence
pools, per-sentence done flags and `cur_len`. -/
structure BeamState where
  generated : ℕ → List ℕ
  beam_scores : ℕ → ℚ
  hyps : ℕ → BeamHypotheses
  done : ℕ → Bool
  cur_len : ℕ

/-- Candidate value for sentence `s` at flat word index `i < beam_size *
n_words` (`beam_id = i / n_words`, `word_id = i % n_words`): running beam
score plus log-softmax score of the word given that beam's tokens. -/
def beamCandValue (P : BeamParams) (st : BeamState) (s i : ℕ) : ℚ :=
  P.lsm s ((st.generated (s * P.beam_size + i / P.n_words)).take st.cur_len)
      (i % P.n_words) +
    st.beam_scores (s * P.beam_size + i / P.n_words)

/-- The `torch.topk(_scores, 2 * beam_size)` candidates of one sentence,
best first. -/
def beamCands (P : BeamParams) (st : BeamState) (s : ℕ) : List (ℚ × ℕ) :=
  topCands (beamCandValue P st s) (P.beam_size * P.n_words) (2 * P.beam_size)

/-- The per-sentence candidate walk: an eos candidate (or any candidate at
the final step) is handed to the pool; others fill the next beam list as
`(value, word_id, flat source index)` until it holds `beam_size` entries. -/
def beamWalk (P : BeamParams) (s cur_len : ℕ) (gen : ℕ → List ℕ) :
    List (ℚ × ℕ) → BeamHypotheses → List (ℚ × ℕ × ℕ) →
    BeamHypotheses × List (ℚ × ℕ × ℕ)
  | [], pool, acc => (pool, acc)
  | (value, idx) :: rest, pool, acc =>
    if idx % P.n_words = P.eos_index ∨ cur_len + 1 = P.global_max_len then
      if acc.length = P.beam_size then
        (pool.add ((gen (s * P.beam_size + idx / P.n_words)).take cur_len) value, acc)
      else
        beamWalk P s cur_len gen rest
          (pool.add ((gen (s * P.beam_size + idx / P.n_words)).take cur_len) value) acc
    else
      if (acc ++ [(value, idx % P.n_words, s * P.beam_size + idx / P.n_words)]).length =
          P.beam_size then
        (pool, acc ++ [(value, idx % P.n_words, s * P.beam_size + idx / P.n_words)])
      else
        beamWalk P s cur_len gen rest pool
          (acc ++ [(value, idx % P.n_words, s * P.beam_size + idx / P.n_words)])

/-- One sentence's contribution to a step: `done` sentences (the flag set
beforehand from `is_done` on the best candidate value) contribute pool-as-is
and `beam_size` placeholder `(0, pad, 0)` entries; others run the candidate
walk, padding with placeholders if it produced no continuing beam (only
possible at the final step). -/
def beamSentStep (P : BeamParams) (st : BeamState) (s : ℕ) :
    BeamHypotheses × List (ℚ × ℕ × ℕ) :=
  if st.done s || (st.hyps s).is_done ((beamCands P st s).headD (0, 0)).1 then
    (st.hyps s, List.replicate P.beam_size ((0 : ℚ), P.pad_index, 0))
  else
    ((beamWalk P s st.cur_len st.generated (beamCands P st s) (st.hyps s) []).1,
     if (beamWalk P s st.cur_len st.generated (beamCands P st s) (st.hyps s) []).2 = []
     then List.replicate P.beam_size ((0 : ℚ), P.pad_index, 0)
     else (beamWalk P s st.cur_len st.generated (beamCands P st s) (st.hyps s) []).2)

/-- Flat entry `j` of the assembled `next_batch_beam`. -/
def beamEntry (P : BeamParams) (st : BeamState) (j : ℕ) : ℚ × ℕ × ℕ :=
  (beamSentStep P st (j / P.beam_size)).2.getD (j % P.beam_size)
    ((0 : ℚ), P.pad_index, 0)

/-- One iteration of the `generate_beam` loop: reindex the generated buffer
by each entry's source beam, write the new words at `cur_len`, install the
new beam scores, pools and done flags, advance `cur_len`. -/
def beam_step (P : BeamParams) (st : BeamState) : BeamState :=
  { generated := fun j =>
      (st.generated (beamEntry P st j).2.2).set st.cur_len (beamEntry P st j).2.1
    beam_scores := fun j => (beamEntry P st j).1
    hyps := fun s => (beamSentStep P st s).1
    done := fun s => st.done s ||
      (st.hyps s).is_done ((beamCands P st s).headD (0, 0)).1
    cur_len := st.cur_len + 1 }

/-- Initial state: pad-filled buffer with the eos-as-bos first step, beam 0
scored `0` and the other beams `-1e9` per sentence, fresh pools, no sentence
done, `cur_len = 1`. -/
def beam_start (P : BeamParams) : BeamState :=
  { generated := fun _ => (List.replicate P.global_max_len P.pad_index).set 0 P.eos_index
    beam_scores := fun j => if j % P.beam_size = 0 then 0 else -(10 ^ 9 : ℚ)
    hyps := fun _ => mkBeamHypotheses P.beam_size P.global_max_len P.lengthNorm
      P.early_stopping
    done := fun _ => false
    cur_len := 1 }

/-- The `while cur_len < global_max_len` loop, breaking when all sentences
are done. -/
def beam_loop (P : BeamParams) : ℕ → BeamState → BeamState
  | 0, st => st
  | fuel + 1, st =>
    if st.cur_len < P.global_max_len then
      if (List.range P.bs).all (fun s => (beam_step P st).done s) then beam_step P st
      else beam_loop P fuel (beam_step P st)
    else st

/-- The finalization sort: `sorted(hypotheses.hyp, key=lambda x: x[0],
reverse=True)`, keeping the token lists. -/
def sorted_hyps (b : BeamHypotheses) : List (List ℕ) :=
  (List.insertionSort (fun x y : ℚ × List ℕ => y.1 < x.1) b.hyp).map Prod.snd

/-- `tgt_len[i] = max(len(hyp) for hyp in sorted_hyps) + 1`. -/
def beam_tgt_len (P : BeamParams) (st : BeamState) (i : ℕ) : ℕ :=
  ((sorted_hyps (st.hyps i)).map List.length).foldr max 0 + 1

/-- `TransformerModel.generate_beam`: run the loop, sort each sentence's pool
by score descending, and build the padded `decoded` output: column
(sentence `i`, hypothesis slot `k`) holds the chosen hypothesis, one appended
eos marker, then padding up to `tgt_len.max()`.  Returns the columns and the
per-sentence target lengths. -/
def generate_beam (P : BeamParams) : (ℕ → ℕ → List ℕ) × (ℕ → ℕ) :=
  ((fun i k =>
      ((sorted_hyps ((beam_loop P P.global_max_len (beam_start P)).hyps i)).getD k [] ++
          [P.eos_index]) ++
        List.replicate
          ((((List.range P.bs).map
              (beam_tgt_len P (beam_loop P P.global_max_len (beam_start P)))).foldr
                max 0) -
            (((sorted_hyps ((beam_loop P P.global_max_len
              (beam_start P)).hyps i)).getD k []).length + 1))
          P.pad_index),
   beam_tgt_len P (beam_loop P P.global_max_len (beam_start P)))

/-- A generated-buffer column that is consistent at `cur_len = t`: full
height, starting with the bos marker, no further eos among the first `t`
tokens. -/
def colWF (P : BeamParams) (t : ℕ) (col : List ℕ) : Prop :=
  col.length = P.global_max_len ∧
  ∃ mid, col.take t = P.eos_index :: mid ∧ (∀ w ∈ mid, w ≠ P.eos_index) ∧
    mid.length + 1 = t

/-- A well-formed pooled hypothesis: nonempty, strictly shorter than the
maximum length, bos first, no other eos. -/
def hypWF (P : BeamParams) (h : List ℕ) : Prop :=
  1 ≤ h.length ∧ h.length + 1 ≤ P.global_max_len ∧
  ∃ mid, h = P.eos_index :: mid ∧ ∀ w ∈ mid, w ≠ P.eos_index

/-- A continuing `next_batch_beam` entry of sentence `s`: non-eos word,
source taken from one of the sentence's own beams. -/
def entryOK (P : BeamParams) (s : ℕ) (e : ℚ × ℕ × ℕ) : Prop :=
  e.2.1 ≠ P.eos_index ∧ ∃ b, b < P.beam_size ∧ e.2.2 = s * P.beam_size + b

/-- Pool well-formedness carried through the beam loop. -/
def poolWF (P : BeamParams) (b : BeamHypotheses) : Prop :=
  (∀ q ∈ b.hyp, hypWF P q.2) ∧ b.hyp.length ≤ P.beam_size ∧ b.n_hyp = P.beam_size

/-- Loop invariant of `generate_beam`: `cur_len` in range, pools well formed,
done sentences have full pools, columns of live sentences are consistent, and
at the horizon every pool is full. -/
def BeamInv (P : BeamParams) (st : BeamState) : Prop :=
  (1 ≤ st.cur_len ∧ st.cur_len ≤ P.global_max_len) ∧
  (∀ s, s < P.bs → poolWF P (st.hyps s)) ∧
  (∀ s, s < P.bs → st.done s = true → (st.hyps s).hyp.length = P.beam_size) ∧
  (∀ s, s < P.bs → st.done s = false → st.cur_len < P.global_max_len →
    ∀ b, b < P.beam_size → colWF P st.cur_len (st.generated (s * P.beam_size + b))) ∧
  (st.cur_len = P.global_max_len → ∀ s, s < P.bs →
    (st.hyps s).hyp.length = P.beam_size)

/-- A concrete `generate` instance for witnesses: one sentence, two words,
score oracle preferring word 0, maximum length 3 (so the run is
start-token, word 0, forced eos). -/
def exGen : GenParams :=
  { bs := 1, n_words := 2, eos_index := 1, pad_index := 2, n_layers := 1,
    src_time := 3, global_max_len := 3, max_lengths := fun _ => 3,
    score := fun _ _ w => if w = 0 then 0 else -1, sample := none }

/-- A concrete `generate_beam` instance: one sentence, one beam, two words,
maximum length 2, no length penalty, scores preferring word `0` over eos. -/
def exBeam : BeamParams :=
  { bs := 1
    beam_size := 1
    n_words := 2
    eos_index := 1
    pad_index := 2
    global_max_len := 2
    lengthNorm := fun _ => 1
    early_stopping := false
    lsm := fun _ _ w => if w = 0 then 0 else -1 }

/-- A concrete greedy instance for the beam-vs-greedy comparison: one
sentence, two words, eos `1`, pad `2`, maximum length 4, greedy mode; the
scores prefer eos right away but a longer continuation normalizes better. -/
def exGen9 : GenParams :=
  { bs := 1
    n_words := 2
    eos_index := 1
    pad_index := 2
    n_layers := 1
    src_time := 1
    global_max_len := 4
    max_lengths := fun _ => 4
    score := fun _ pre w =>
      if pre = [1] then (if w = 1 then -1 else -3/2)
      else if pre = [1, 0] then (if w = 0 then -1/10 else -4)
      else (if w = 1 then -1/20 else -6)
    sample := none }

/-- The matching beam call with `beam_size = 1` on the same scores, with the
source's default `early_stopping = False` and length penalty normalizer. -/
def exBeam9 : BeamParams :=
  { bs := 1
    beam_size := 1
    n_words := 2
    eos_index := 1
    pad_index := 2
    global_max_len := 4
    lengthNorm := fun l => (l : ℚ)
    early_stopping := false
    lsm := exGen9.score }

/-- The beam call `generate_beam` builds from a greedy parameter set when
`beam_size = 1` and `early_stopping = True`: identical dimensions, markers,
maximum length and scores. -/
def beamOf (Pg : GenParams) (ln : ℕ → ℚ) : BeamParams :=
  { bs := Pg.bs
    beam_size := 1
    n_words := Pg.n_words
    eos_index := Pg.eos_index
    pad_index := Pg.pad_index
    global_max_len := Pg.global_max_len
    lengthNorm := ln
    early_stopping := true
    lsm := Pg.score }

/-- Per-sentence simulation clause tying the `beam_size = 1` beam state at
`cur_len = t + 1` to the greedy anchor `prun`: while the greedy sentence is
alive the beam has an empty pool, a cleared done flag and the greedy tokens;
once it finishes the pool holds exactly the greedy hypothesis (the output
without its final eos) and the done flag trails the finish by one step. -/
def BRelSent (Pg : GenParams) (t : ℕ) (st : BeamState) (s : ℕ) : Prop :=
  (st.hyps s).n_hyp = 1 ∧ (st.hyps s).early_stopping = true ∧
  ((prun Pg s t).2 = true →
    st.done s = false ∧ (st.hyps s).hyp = [] ∧
    st.generated s = (prun Pg s t).1 ++
      List.replicate (Pg.global_max_len - (prun Pg s t).1.length) Pg.pad_index) ∧
  ((prun Pg s t).2 = false →
    (st.hyps s).hyp.map Prod.snd = [(prun Pg s t).1.dropLast] ∧
    st.done s = decide ((prun Pg s t).1.length ≤ t))

def BRel9 (Pg : GenParams) (t : ℕ) (st : BeamState) : Prop :=
  st.cur_len = t + 1 ∧ ∀ s, s < Pg.bs → BRelSent Pg t st s

/-- The self-attention entries of a cache are synchronized with `slen`
(absent only while `slen = 0`). -/
def selfSync (n_layers : ℕ) (c : Cache) : Prop :=
  ∀ i, i < n_layers →
    (c.self_entries i = none ∧ c.slen = 0) ∨
    (∃ e, c.self_entries i = some e ∧ e.tlen = c.slen)

/-! ### Theorems -/

/-! Facts about the `(score, index)` list and its sort, needed to reason about
the eviction branch of `add`. -/

theorem poolLe_refl (a : ℚ × ℕ) : poolLe a a := Or.inr ⟨rfl, le_rfl⟩

theorem poolLe_fst_le {a b : ℚ × ℕ} (h : poolLe a b) : a.1 ≤ b.1 := by
  rcases h with h | ⟨h, _⟩
  · exact h.le
  · exact h.le

theorem indexedScores_length (l : List (ℚ × List ℕ)) :
    (indexedScores l).length = l.length := by
  simp [indexedScores]

theorem indexedScores_getElem (l : List (ℚ × List ℕ)) (i : ℕ) (h : i < l.length)
    (h2 : i < (indexedScores l).length) :
    (indexedScores l)[i] = (l[i].1, i) := by
  simp [indexedScores]

theorem indexedScores_map_fst (l : List (ℚ × List ℕ)) :
    (indexedScores l).map Prod.fst = l.map Prod.fst := by
  unfold indexedScores
  rw [List.map_fst_zip]
  simp

theorem mem_indexedScores {l : List (ℚ × List ℕ)} {q : ℚ × ℕ}
    (h : q ∈ indexedScores l) :
    ∃ hq : q.2 < l.length, q.1 = (l[q.2]).1 := by
  obtain ⟨i, hi0, hget⟩ := List.getElem_of_mem h
  have hi : i < l.length := by
    have hc := hi0
    rwa [indexedScores_length] at hc
  rw [indexedScores_getElem l i hi hi0] at hget
  have h2 : i = q.2 := congrArg Prod.snd hget
  have h1 : l[i].1 = q.1 := congrArg Prod.fst hget
  subst h2
  exact ⟨hi, h1.symm⟩

theorem map_eraseIdx {α β : Type} (f : α → β) :
    ∀ (l : List α) (i : ℕ), (l.eraseIdx i).map f = (l.map f).eraseIdx i
  | [], _ => rfl
  | a :: t, 0 => rfl
  | a :: t, i + 1 => by
    simp only [List.eraseIdx, List.map]
    rw [map_eraseIdx f t i]

theorem perm_getElem_cons_eraseIdx {α : Type} :
    ∀ (l : List α) (i : ℕ) (h : i < l.length), l.Perm (l[i] :: l.eraseIdx i)
  | a :: t, 0, _ => by simp
  | a :: t, i + 1, h => by
    have ht : i < t.length := by simpa using h
    have h1 := (perm_getElem_cons_eraseIdx t i ht).cons a
    have h2 : (a :: t[i] :: t.eraseIdx i).Perm (t[i] :: a :: t.eraseIdx i) :=
      List.Perm.swap _ _ _
    have h3 := h1.trans h2
    simpa using h3

/-- Combined facts about the sorted `(score, index)` list used in the eviction
branch: the head names a valid index holding a minimal score, and after erasing
it the recorded `sorted_scores[1][0]` is a minimal score of what remains. -/
theorem evict_facts (l : List (ℚ × List ℕ)) (hl : 2 ≤ l.length) :
    ((List.insertionSort poolLe (indexedScores l)).headD (0, 0)).2 < l.length ∧
    (∀ x ∈ l.map Prod.fst,
      ((l.map Prod.fst).getD ((List.insertionSort poolLe (indexedScores l)).headD (0, 0)).2 0) ≤ x) ∧
    ((List.insertionSort poolLe (indexedScores l)).getD 1 (0, 0)).1 ∈
      (l.eraseIdx ((List.insertionSort poolLe (indexedScores l)).headD (0, 0)).2).map Prod.fst ∧
    (∀ x ∈ (l.eraseIdx ((List.insertionSort poolLe (indexedScores l)).headD (0, 0)).2).map Prod.fst,
      ((List.insertionSort poolLe (indexedScores l)).getD 1 (0, 0)).1 ≤ x) := by
  set ss := List.insertionSort poolLe (indexedScores l) with hss
  have hperm : ss.Perm (indexedScores l) := List.perm_insertionSort _ _
  have hsort : List.Sorted poolLe ss := List.sorted_insertionSort _ _
  have hlen : ss.length = l.length := by
    rw [hperm.length_eq, indexedScores_length]
  match hSS : ss with
  | [] => simp at hlen; omega
  | [p0] => simp at hlen; omega
  | p0 :: p1 :: tl =>
  -- the head is a member, so a valid index
  have hp0mem : p0 ∈ indexedScores l := hperm.mem_iff.mp (by simp)
  obtain ⟨hp0lt, hp0score⟩ := mem_indexedScores hp0mem
  have hheadD : (p0 :: p1 :: tl).headD (0, 0) = p0 := rfl
  have hgetD1 : (p0 :: p1 :: tl).getD 1 (0, 0) = p1 := rfl
  rw [hheadD, hgetD1]
  -- the head is below every pair
  have hp0le : ∀ q ∈ indexedScores l, poolLe p0 q := by
    intro q hq
    rcases List.mem_cons.mp (hperm.symm.mem_iff.mp hq : q ∈ p0 :: p1 :: tl) with h | h
    · exact h ▸ poolLe_refl p0
    · exact List.rel_of_sorted_cons hsort q h
  refine ⟨hp0lt, ?_, ?_⟩
  · -- evicted entry has minimal score
    intro x hx
    obtain ⟨q, hq, hqx⟩ := List.mem_map.mp (by rw [← indexedScores_map_fst] at hx; exact hx)
    have hgd : (l.map Prod.fst).getD p0.2 0 = p0.1 := by
      rw [List.getD_eq_getElem _ _ (by simpa using hp0lt), List.getElem_map]
      exact hp0score.symm
    rw [hgd, ← hqx]
    exact poolLe_fst_le (hp0le q hq)
  -- scores of the erased list are a permutation of the sorted tail's scores
  have hperm2 : (l.map Prod.fst).Perm (p0.1 :: (l.eraseIdx p0.2).map Prod.fst) := by
    have hlt2 : p0.2 < (l.map Prod.fst).length := by simpa using hp0lt
    have h1 : (l.map Prod.fst).Perm ((l.map Prod.fst)[p0.2] ::
        (l.map Prod.fst).eraseIdx p0.2) :=
      perm_getElem_cons_eraseIdx (l.map Prod.fst) p0.2 hlt2
    rw [List.getElem_map, ← map_eraseIdx] at h1
    rw [← hp0score] at h1
    exact h1
  have hperm3 : ((p0 :: p1 :: tl).map Prod.fst).Perm (l.map Prod.fst) := by
    have := hperm.map Prod.fst
    rw [indexedScores_map_fst] at this
    exact this
  have hperm4 : (p1.1 :: (tl.map Prod.fst)).Perm ((l.eraseIdx p0.2).map Prod.fst) := by
    have h5 : (p0.1 :: p1.1 :: tl.map Prod.fst).Perm
        (p0.1 :: (l.eraseIdx p0.2).map Prod.fst) := by
      have := hperm3.trans hperm2
      simpa using this
    exact h5.cons_inv
  have hsort1 : List.Sorted poolLe (p1 :: tl) := hsort.of_cons
  constructor
  · exact hperm4.mem_iff.mp (by simp)
  · intro x hx
    rcases List.mem_cons.mp (hperm4.symm.mem_iff.mp hx) with h | h
    · exact le_of_eq h.symm
    · obtain ⟨q, hq, hqx⟩ := List.mem_map.mp h
      rw [← hqx]
      exact poolLe_fst_le (List.rel_of_sorted_cons hsort1 q hq)

theorem add_n_hyp (b : BeamHypotheses) (h : List ℕ) (slp : ℚ) :
    (b.add h slp).n_hyp = b.n_hyp := by
  unfold BeamHypotheses.add
  split
  · split <;> rfl
  · rfl

theorem add_lengthNorm (b : BeamHypotheses) (h : List ℕ) (slp : ℚ) :
    (b.add h slp).lengthNorm = b.lengthNorm := by
  unfold BeamHypotheses.add
  split
  · split <;> rfl
  · rfl

theorem add_max_len (b : BeamHypotheses) (h : List ℕ) (slp : ℚ) :
    (b.add h slp).max_len = b.max_len := by
  unfold BeamHypotheses.add
  split
  · split <;> rfl
  · rfl

theorem add_early_stopping (b : BeamHypotheses) (h : List ℕ) (slp : ℚ) :
    (b.add h slp).early_stopping = b.early_stopping := by
  unfold BeamHypotheses.add
  split
  · split <;> rfl
  · rfl

theorem poolInv_mk (n L : ℕ) (pn : ℕ → ℚ) (es : Bool) :
    poolInv (mkBeamHypotheses n L pn es) :=
  ⟨by simp [mkBeamHypotheses], fun _ => rfl, fun hne => absurd rfl hne⟩

theorem poolInv_add (b : BeamHypotheses) (h : List ℕ) (slp : ℚ)
    (hn : 1 ≤ b.n_hyp)
    (hs : slp / b.lengthNorm h.length ≤ 10 ^ 9)
    (hb : poolInv b) : poolInv (b.add h slp) := by
  obtain ⟨hlen, hempty, hmin⟩ := hb
  unfold BeamHypotheses.add
  by_cases hc : b.hyp.length < b.n_hyp ∨
      b.worst_score < slp / b.lengthNorm h.length
  · rw [if_pos hc]
    by_cases hev : b.n_hyp < (b.hyp ++ [(slp / b.lengthNorm h.length, h)]).length
    · rw [if_pos hev]
      have hlen2 : 2 ≤ (b.hyp ++ [(slp / b.lengthNorm h.length, h)]).length := by
        simp only [List.length_append, List.length_cons, List.length_nil] at hev ⊢
        omega
      obtain ⟨hi0, hmin0, hw1, hw2⟩ :=
        evict_facts (b.hyp ++ [(slp / b.lengthNorm h.length, h)]) hlen2
      have herlen := List.length_eraseIdx_add_one hi0
      have g1 : ((b.hyp ++ [(slp / b.lengthNorm h.length, h)]).eraseIdx
          ((List.insertionSort poolLe (indexedScores
            (b.hyp ++ [(slp / b.lengthNorm h.length, h)]))).headD (0, 0)).2).length ≤
          b.n_hyp := by
        simp only [List.length_append, List.length_cons, List.length_nil] at herlen
        omega
      have g2 : (b.hyp ++ [(slp / b.lengthNorm h.length, h)]).eraseIdx
          ((List.insertionSort poolLe (indexedScores
            (b.hyp ++ [(slp / b.lengthNorm h.length, h)]))).headD (0, 0)).2 ≠ [] := by
        intro hE
        rw [hE] at herlen
        simp only [List.length_nil, List.length_append, List.length_cons] at herlen hev
        omega
      exact ⟨g1, fun hE => absurd hE g2, fun _ => ⟨hw1, hw2⟩⟩
    · rw [if_neg hev]
      simp only [not_lt, List.length_append, List.length_cons, List.length_nil] at hev
      refine ⟨?_, ?_, ?_⟩
      · dsimp only
        simp only [List.length_append, List.length_cons, List.length_nil]
        omega
      · intro hE
        dsimp only at hE
        exact absurd (congrArg List.length hE) (by simp)
      · intro _
        dsimp only
        by_cases hhE : b.hyp = []
        · rw [hhE, hempty hhE, min_eq_left hs]
          constructor
          · simp
          · intro x hx
            simp at hx
            exact le_of_eq hx.symm
        · obtain ⟨hm1, hm2⟩ := hmin hhE
          constructor
          · rcases le_total (slp / b.lengthNorm h.length) b.worst_score with hle | hle
            · rw [min_eq_left hle]
              simp
            · rw [min_eq_right hle]
              rw [List.map_append]
              exact List.mem_append_left _ hm1
          · intro x hx
            rw [List.map_append] at hx
            rcases List.mem_append.mp hx with hx | hx
            · exact le_trans (min_le_right _ _) (hm2 x hx)
            · simp at hx
              rw [hx]
              exact min_le_left _ _
  · rw [if_neg hc]
    exact ⟨hlen, hempty, hmin⟩

theorem getD_append_singleton {α : Type} (l : List α) (x d : α) :
    (l ++ [x]).getD l.length d = x := by
  rw [List.getD_eq_getElem _ _ (by simp)]
  simp

theorem add_hyp_mem (b : BeamHypotheses) (h : List ℕ) (slp : ℚ) (q : ℚ × List ℕ)
    (hq : q ∈ (b.add h slp).hyp) :
    q ∈ b.hyp ∨ q = (slp / b.lengthNorm h.length, h) := by
  unfold BeamHypotheses.add at hq
  by_cases hc : b.hyp.length < b.n_hyp ∨ b.worst_score < slp / b.lengthNorm h.length
  · rw [if_pos hc] at hq
    by_cases hev : b.n_hyp < (b.hyp ++ [(slp / b.lengthNorm h.length, h)]).length
    · rw [if_pos hev] at hq
      dsimp only at hq
      have hq2 := (List.eraseIdx_sublist _ _).subset hq
      rcases List.mem_append.mp hq2 with hq3 | hq3
      · exact Or.inl hq3
      · exact Or.inr (by simpa using hq3)
    · rw [if_neg hev] at hq
      dsimp only at hq
      rcases List.mem_append.mp hq with hq3 | hq3
      · exact Or.inl hq3
      · exact Or.inr (by simpa using hq3)
  · rw [if_neg hc] at hq
    exact Or.inl hq

theorem add_length_le (b : BeamHypotheses) (h : List ℕ) (slp : ℚ)
    (hn : 1 ≤ b.n_hyp) (hlen : b.hyp.length ≤ b.n_hyp) :
    (b.add h slp).hyp.length ≤ b.n_hyp := by
  unfold BeamHypotheses.add
  by_cases hc : b.hyp.length < b.n_hyp ∨ b.worst_score < slp / b.lengthNorm h.length
  · rw [if_pos hc]
    by_cases hev : b.n_hyp < (b.hyp ++ [(slp / b.lengthNorm h.length, h)]).length
    · rw [if_pos hev]
      have hlen2 : 2 ≤ (b.hyp ++ [(slp / b.lengthNorm h.length, h)]).length := by
        simp only [List.length_append, List.length_cons, List.length_nil] at hev ⊢
        omega
      obtain ⟨hi0, _, _, _⟩ :=
        evict_facts (b.hyp ++ [(slp / b.lengthNorm h.length, h)]) hlen2
      have herlen := List.length_eraseIdx_add_one hi0
      dsimp only
      simp only [List.length_append, List.length_cons, List.length_nil] at herlen ⊢
      omega
    · rw [if_neg hev]
      dsimp only
      simp only [not_lt, List.length_append, List.length_cons, List.length_nil] at hev ⊢
      omega
  · rw [if_neg hc]
    exact hlen

theorem add_length_ge (b : BeamHypotheses) (h : List ℕ) (slp : ℚ)
    (hn : 1 ≤ b.n_hyp) :
    min b.n_hyp (b.hyp.length + 1) ≤ (b.add h slp).hyp.length := by
  unfold BeamHypotheses.add
  by_cases hc : b.hyp.length < b.n_hyp ∨ b.worst_score < slp / b.lengthNorm h.length
  · rw [if_pos hc]
    by_cases hev : b.n_hyp < (b.hyp ++ [(slp / b.lengthNorm h.length, h)]).length
    · rw [if_pos hev]
      have hlen2 : 2 ≤ (b.hyp ++ [(slp / b.lengthNorm h.length, h)]).length := by
        simp only [List.length_append, List.length_cons, List.length_nil] at hev ⊢
        omega
      obtain ⟨hi0, _, _, _⟩ :=
        evict_facts (b.hyp ++ [(slp / b.lengthNorm h.length, h)]) hlen2
      have herlen := List.length_eraseIdx_add_one hi0
      dsimp only
      simp only [List.length_append, List.length_cons, List.length_nil] at herlen hev ⊢
      omega
    · rw [if_neg hev]
      dsimp only
      simp only [List.length_append, List.length_cons, List.length_nil]
      omega
  · rw [if_neg hc]
    push_neg at hc
    exact le_trans (min_le_left _ _) hc.1

theorem addList_n_hyp (ops : List (List ℕ × ℚ)) :
    ∀ b : BeamHypotheses, (addList b ops).n_hyp = b.n_hyp := by
  induction ops with
  | nil => intro b; rfl
  | cons op ops ih =>
    intro b
    show (addList (b.add op.1 op.2) ops).n_hyp = b.n_hyp
    rw [ih, add_n_hyp]

theorem addList_lengthNorm (ops : List (List ℕ × ℚ)) :
    ∀ b : BeamHypotheses, (addList b ops).lengthNorm = b.lengthNorm := by
  induction ops with
  | nil => intro b; rfl
  | cons op ops ih =>
    intro b
    show (addList (b.add op.1 op.2) ops).lengthNorm = b.lengthNorm
    rw [ih, add_lengthNorm]

theorem addList_max_len (ops : List (List ℕ × ℚ)) :
    ∀ b : BeamHypotheses, (addList b ops).max_len = b.max_len := by
  induction ops with
  | nil => intro b; rfl
  | cons op ops ih =>
    intro b
    show (addList (b.add op.1 op.2) ops).max_len = b.max_len
    rw [ih, add_max_len]

theorem addList_early_stopping (ops : List (List ℕ × ℚ)) :
    ∀ b : BeamHypotheses, (addList b ops).early_stopping = b.early_stopping := by
  induction ops with
  | nil => intro b; rfl
  | cons op ops ih =>
    intro b
    show (addList (b.add op.1 op.2) ops).early_stopping = b.early_stopping
    rw [ih, add_early_stopping]

theorem poolInv_addList (ops : List (List ℕ × ℚ)) :
    ∀ b : BeamHypotheses, 1 ≤ b.n_hyp →
      (∀ op ∈ ops, op.2 / b.lengthNorm op.1.length ≤ 10 ^ 9) →
      poolInv b → poolInv (addList b ops) := by
  induction ops with
  | nil => intro b _ _ hb; exact hb
  | cons op ops ih =>
    intro b hn hops hb
    show poolInv (addList (b.add op.1 op.2) ops)
    refine ih (b.add op.1 op.2) ?_ ?_ ?_
    · rw [add_n_hyp]; exact hn
    · intro p hp
      rw [add_lengthNorm]
      exact hops p (List.mem_cons_of_mem _ hp)
    · exact poolInv_add b op.1 op.2 hn (hops op (List.mem_cons_self _ _)) hb

/-- C7: full contract of a single `add` on any reachable pool.  Scores are
log-probability sums, so normalized scores stay below the `1e9` sentinel;
this is recorded as the hypotheses `hops`/`hnew`. -/
theorem C7_add_contract (n L : ℕ) (pn : ℕ → ℚ) (es : Bool)
    (ops : List (List ℕ × ℚ)) (h : List ℕ) (slp : ℚ)
    (hn : 1 ≤ n)
    (hops : ∀ op ∈ ops, op.2 / pn op.1.length ≤ 10 ^ 9)
    (hnew : slp / pn h.length ≤ 10 ^ 9) :
    (¬((addList (mkBeamHypotheses n L pn es) ops).hyp.length < n ∨
        (addList (mkBeamHypotheses n L pn es) ops).worst_score < slp / pn h.length) →
      (addList (mkBeamHypotheses n L pn es) ops).add h slp =
        addList (mkBeamHypotheses n L pn es) ops) ∧
    (((addList (mkBeamHypotheses n L pn es) ops).hyp.length < n ∨
        (addList (mkBeamHypotheses n L pn es) ops).worst_score < slp / pn h.length) →
      (slp / pn h.length, h) ∈ ((addList (mkBeamHypotheses n L pn es) ops).add h slp).hyp ∧
      ((addList (mkBeamHypotheses n L pn es) ops).hyp.length < n →
        ((addList (mkBeamHypotheses n L pn es) ops).add h slp).hyp =
          (addList (mkBeamHypotheses n L pn es) ops).hyp ++ [(slp / pn h.length, h)]) ∧
      ((addList (mkBeamHypotheses n L pn es) ops).hyp.length = n →
        ∃ i, i < ((addList (mkBeamHypotheses n L pn es) ops).hyp ++
            [(slp / pn h.length, h)]).length ∧
          ((addList (mkBeamHypotheses n L pn es) ops).add h slp).hyp =
            ((addList (mkBeamHypotheses n L pn es) ops).hyp ++
              [(slp / pn h.length, h)]).eraseIdx i ∧
          ∀ x ∈ ((addList (mkBeamHypotheses n L pn es) ops).hyp ++
              [(slp / pn h.length, h)]).map Prod.fst,
            (((addList (mkBeamHypotheses n L pn es) ops).hyp ++
              [(slp / pn h.length, h)]).map Prod.fst).getD i 0 ≤ x)) ∧
    ((addList (mkBeamHypotheses n L pn es) ops).add h slp).hyp.length ≤ n ∧
    (((addList (mkBeamHypotheses n L pn es) ops).add h slp).hyp ≠ [] →
      ((addList (mkBeamHypotheses n L pn es) ops).add h slp).worst_score ∈
        ((addList (mkBeamHypotheses n L pn es) ops).add h slp).hyp.map Prod.fst ∧
      ∀ x ∈ ((addList (mkBeamHypotheses n L pn es) ops).add h slp).hyp.map Prod.fst,
        ((addList (mkBeamHypotheses n L pn es) ops).add h slp).worst_score ≤ x) := by
  have hBn : (addList (mkBeamHypotheses n L pn es) ops).n_hyp = n := by
    rw [addList_n_hyp]; rfl
  have hBpn : (addList (mkBeamHypotheses n L pn es) ops).lengthNorm = pn := by
    rw [addList_lengthNorm]; rfl
  have hInv : poolInv (addList (mkBeamHypotheses n L pn es) ops) :=
    poolInv_addList ops (mkBeamHypotheses n L pn es) hn (by intro op hop; exact hops op hop)
      (poolInv_mk n L pn es)
  have hInv' : poolInv ((addList (mkBeamHypotheses n L pn es) ops).add h slp) :=
    poolInv_add _ h slp (by rw [hBn]; exact hn) (by rw [hBpn]; exact hnew) hInv
  set b := addList (mkBeamHypotheses n L pn es) ops with hbdef
  refine ⟨?_, ?_, ?_, hInv'.2.2⟩
  · -- rejected: unchanged
    intro hnc
    unfold BeamHypotheses.add
    rw [if_neg]
    rw [← hBn, ← hBpn] at hnc
    exact hnc
  · -- inserted
    intro hcond
    have hcond' : b.hyp.length < b.n_hyp ∨
        b.worst_score < slp / b.lengthNorm h.length := by
      rw [hBn, hBpn]
      exact hcond
    refine ⟨?_, ?_, ?_⟩
    · -- membership of the new entry
      unfold BeamHypotheses.add
      rw [if_pos hcond']
      by_cases hev : b.n_hyp < (b.hyp ++ [(slp / b.lengthNorm h.length, h)]).length
      · rw [if_pos hev]
        dsimp only
        -- the evicted index is not the new entry's index
        have hlenb := hInv.1
        rw [hBn] at hlenb
        have hlen2 : 2 ≤ (b.hyp ++ [(slp / b.lengthNorm h.length, h)]).length := by
          simp only [List.length_append, List.length_cons, List.length_nil] at hev ⊢
          rw [hBn] at hev
          omega
        obtain ⟨hi0, hmin0, _, _⟩ :=
          evict_facts (b.hyp ++ [(slp / b.lengthNorm h.length, h)]) hlen2
        have hfull : b.hyp.length = n := by
          simp only [List.length_append, List.length_cons, List.length_nil] at hev
          rw [hBn] at hev
          omega
        have hne : b.hyp ≠ [] := by
          intro hE
          rw [hE] at hfull
          simp at hfull
          omega
        obtain ⟨hw1, hw2⟩ := hInv.2.2 hne
        have hworst : b.worst_score < slp / b.lengthNorm h.length := by
          rcases hcond with hc1 | hc1
          · omega
          · rw [hBpn]; exact hc1
        have hi0ne : ((List.insertionSort poolLe (indexedScores
            (b.hyp ++ [(slp / b.lengthNorm h.length, h)]))).headD (0, 0)).2 ≠
            b.hyp.length := by
          intro hEq
          have hgd : ((b.hyp ++ [(slp / b.lengthNorm h.length, h)]).map Prod.fst).getD
              ((List.insertionSort poolLe (indexedScores
                (b.hyp ++ [(slp / b.lengthNorm h.length, h)]))).headD (0, 0)).2 0 =
              slp / b.lengthNorm h.length := by
            rw [hEq, List.map_append]
            simp only [List.map_cons, List.map_nil]
            have hg := getD_append_singleton (b.hyp.map Prod.fst)
              (slp / b.lengthNorm h.length) 0
            rw [List.length_map] at hg
            exact hg
          have hb1 : b.worst_score ∈
              (b.hyp ++ [(slp / b.lengthNorm h.length, h)]).map Prod.fst := by
            rw [List.map_append]
            exact List.mem_append_left _ hw1
          have hcontr := hmin0 _ hb1
          rw [hgd] at hcontr
          exact absurd (lt_of_le_of_lt hcontr hworst) (lt_irrefl _)
        have hi0lt : ((List.insertionSort poolLe (indexedScores
            (b.hyp ++ [(slp / b.lengthNorm h.length, h)]))).headD (0, 0)).2 <
            b.hyp.length := by
          simp only [List.length_append, List.length_cons, List.length_nil] at hi0
          omega
        rw [List.eraseIdx_append_of_lt_length hi0lt]
        rw [hBpn]
        exact List.mem_append_right _ (by simp)
      · rw [if_neg hev]
        dsimp only
        rw [hBpn]
        exact List.mem_append_right _ (by simp)
    · -- not yet full: plain append
      intro hlt
      have hnoev : ¬ b.n_hyp < (b.hyp ++ [(slp / b.lengthNorm h.length, h)]).length := by
        simp only [List.length_append, List.length_cons, List.length_nil]
        rw [hBn]
        omega
      unfold BeamHypotheses.add
      rw [if_pos hcond', if_neg hnoev]
      rw [hBpn]
    · -- full: one worst-scoring entry is evicted
      intro hfull
      have hyev : b.n_hyp < (b.hyp ++ [(slp / b.lengthNorm h.length, h)]).length := by
        simp only [List.length_append, List.length_cons, List.length_nil]
        rw [hBn]
        omega
      unfold BeamHypotheses.add
      rw [if_pos hcond', if_pos hyev]
      dsimp only
      have hlen2 : 2 ≤ (b.hyp ++ [(slp / b.lengthNorm h.length, h)]).length := by
        simp only [List.length_append, List.length_cons, List.length_nil]
        omega
      obtain ⟨hi0, hmin0, _, _⟩ :=
        evict_facts (b.hyp ++ [(slp / b.lengthNorm h.length, h)]) hlen2
      rw [hBpn] at hi0 hmin0 ⊢
      exact ⟨_, hi0, rfl, hmin0⟩
  · rw [← hBn]
    exact add_length_le b h slp (by rw [hBn]; exact hn) hInv.1

/-- Witness for C7: a concrete first insertion into an empty pool. -/
theorem C7_add_contract_witness :
    ((-2 : ℚ) / (fun l => (l : ℚ)) ([5] : List ℕ).length, ([5] : List ℕ)) ∈
      ((addList (mkBeamHypotheses 1 3 (fun l => (l : ℚ)) false) []).add [5] (-2)).hyp :=
  ((C7_add_contract 1 3 (fun l => (l : ℚ)) false [] [5] (-2)
    (by decide) (by intro op hop; simp at hop) (by norm_num)).2.1
    (by norm_num [addList, mkBeamHypotheses])).1

/-- C8: characterization of `is_done` on any reachable pool: `false` below
`beam_width` hypotheses; immediately `true` with early stopping; otherwise
`true` exactly when the tracked worst retained score is at least the best
current raw running score normalized by the maximum-length normalizer
`pn (L - 1)` (in the source, `self.max_len = max_len - 1` is the maximal
attainable hypothesis length, the BOS position being excluded). -/
theorem C8_is_done_characterization (n L : ℕ) (pn : ℕ → ℚ) (es : Bool)
    (ops : List (List ℕ × ℚ)) (best : ℚ) :
    ((addList (mkBeamHypotheses n L pn es) ops).hyp.length < n →
      (addList (mkBeamHypotheses n L pn es) ops).is_done best = false) ∧
    (n ≤ (addList (mkBeamHypotheses n L pn es) ops).hyp.length → es = true →
      (addList (mkBeamHypotheses n L pn es) ops).is_done best = true) ∧
    (n ≤ (addList (mkBeamHypotheses n L pn es) ops).hyp.length → es = false →
      ((addList (mkBeamHypotheses n L pn es) ops).is_done best = true ↔
        best / pn (L - 1) ≤ (addList (mkBeamHypotheses n L pn es) ops).worst_score)) := by
  have hBn : (addList (mkBeamHypotheses n L pn es) ops).n_hyp = n := by
    rw [addList_n_hyp]; rfl
  have hBpn : (addList (mkBeamHypotheses n L pn es) ops).lengthNorm = pn := by
    rw [addList_lengthNorm]; rfl
  have hBml : (addList (mkBeamHypotheses n L pn es) ops).max_len = L - 1 := by
    rw [addList_max_len]; rfl
  have hBes : (addList (mkBeamHypotheses n L pn es) ops).early_stopping = es := by
    rw [addList_early_stopping]; rfl
  unfold BeamHypotheses.is_done
  rw [hBn, hBpn, hBml, hBes]
  refine ⟨?_, ?_, ?_⟩
  · intro hlt
    rw [if_pos hlt]
  · intro hge hes
    rw [if_neg (by omega), hes, if_pos rfl]
  · intro hge hes
    rw [if_neg (by omega), hes]
    simp

/-- Witness for C8 at a concrete pool holding one hypothesis. -/
theorem C8_is_done_characterization_witness :
    (addList (mkBeamHypotheses 1 3 (fun l => (l : ℚ)) false) [([1, 5], -2)]).is_done (-1)
      = false := by
  have h := (C8_is_done_characterization 1 3 (fun l => (l : ℚ)) false [([1, 5], -2)]
    (-1)).2.2 (by decide) rfl
  rw [Bool.eq_false_iff]
  intro htrue
  have hx := h.mp htrue
  revert hx
  decide

/-- C10: a full pool rejects a hypothesis whose normalized score ties the
tracked worst score; the pool record is returned unchanged. -/
theorem C10_tie_with_worst_rejected (b : BeamHypotheses) (h : List ℕ) (slp : ℚ)
    (hfull : b.hyp.length = b.n_hyp)
    (htie : slp / b.lengthNorm h.length = b.worst_score) :
    b.add h slp = b := by
  unfold BeamHypotheses.add
  rw [if_neg]
  push_neg
  constructor
  · omega
  · exact le_of_eq htie

/-- Witness for C10 at a concrete full pool with a tying score. -/
theorem C10_tie_with_worst_rejected_witness :
    (BeamHypotheses.add
      { n_hyp := 1, max_len := 3, lengthNorm := fun l => (l : ℚ),
        early_stopping := false, hyp := [(-2, [1, 5])], worst_score := -2 }
      [1, 7] (-4)) =
      { n_hyp := 1, max_len := 3, lengthNorm := fun l => (l : ℚ),
        early_stopping := false, hyp := [(-2, [1, 5])], worst_score := -2 } :=
  C10_tie_with_worst_rejected _ _ _ (by decide) (by norm_num)

theorem prun_frozen (P : GenParams) (s t : ℕ) (h : (prun P s t).2 = false) :
    prun P s (t + 1) = prun P s t := by
  show (if (prun P s t).2 then _ else _) = _
  rw [h]
  simp

theorem prun_frozen_ge (P : GenParams) (s t : ℕ) (h : (prun P s t).2 = false) :
    ∀ u, t ≤ u → prun P s u = prun P s t := by
  intro u hu
  induction u with
  | zero =>
    have ht : t = 0 := by omega
    rw [ht]
  | succ u ih =>
    rcases Nat.lt_or_ge t (u + 1) with hlt | hge
    · have hu' : t ≤ u := by omega
      rw [prun_frozen P s u (by rw [ih hu']; exact h), ih hu']
    · have ht : t = u + 1 := by omega
      rw [ht]

theorem prun_len_unfinished (P : GenParams) (s : ℕ) :
    ∀ t, (prun P s t).2 = true → (prun P s t).1.length = t + 1 := by
  intro t
  induction t with
  | zero => intro _; rfl
  | succ t ih =>
    intro h
    by_cases huf : (prun P s t).2 = true
    · show (if (prun P s t).2 then _ else _ : List ℕ × Bool).1.length = t + 2
      rw [huf]
      simp only [if_true, List.length_append, List.length_cons, List.length_nil]
      rw [ih huf]
    · rw [prun_frozen P s t (by simpa using huf)] at h
      exact absurd h huf

theorem prun_len_le (P : GenParams) (s : ℕ) :
    ∀ t, (prun P s t).1.length ≤ t + 1 := by
  intro t
  induction t with
  | zero => simp [prun]
  | succ t ih =>
    by_cases huf : (prun P s t).2 = true
    · show (if (prun P s t).2 then _ else _ : List ℕ × Bool).1.length ≤ t + 2
      rw [huf]
      simp only [if_true, List.length_append, List.length_cons, List.length_nil]
      omega
    · rw [prun_frozen P s t (by simpa using huf)]
      omega

theorem prun_step_unfinished (P : GenParams) (s t : ℕ)
    (huf : (prun P s t).2 = true) :
    prun P s (t + 1) =
      ((prun P s t).1 ++
         [if P.max_lengths s = t + 2 then P.eos_index
          else next_word P s (t + 1) (prun P s t).1],
       !(decide (next_word P s (t + 1) (prun P s t).1 = P.eos_index)) &&
         !(decide (P.max_lengths s = t + 2))) := by
  show (if (prun P s t).2 then _ else _) = _
  rw [huf]
  exact if_pos rfl

theorem prun_alive_lt_max (P : GenParams) (s : ℕ) (hml : 2 ≤ P.max_lengths s) :
    ∀ t, (prun P s t).2 = true → t + 1 < P.max_lengths s := by
  intro t
  induction t with
  | zero => intro _; omega
  | succ t ih =>
    intro h
    by_cases huf : (prun P s t).2 = true
    · rw [prun_step_unfinished P s t huf] at h
      simp only [Bool.and_eq_true, Bool.not_eq_true', decide_eq_false_iff_not] at h
      have := ih huf
      omega
    · rw [prun_frozen P s t (by simpa using huf)] at h
      exact absurd h huf

theorem prun_wf (P : GenParams) (s : ℕ) (hml : 2 ≤ P.max_lengths s) :
    ∀ t,
      ((prun P s t).2 = true →
        ∃ mid, (prun P s t).1 = P.eos_index :: mid ∧ ∀ w ∈ mid, w ≠ P.eos_index) ∧
      ((prun P s t).2 = false →
        ∃ mid, (prun P s t).1 = P.eos_index :: mid ++ [P.eos_index] ∧
          (∀ w ∈ mid, w ≠ P.eos_index) ∧
          (prun P s t).1.length ≤ P.max_lengths s ∧ 2 ≤ (prun P s t).1.length) := by
  intro t
  induction t with
  | zero =>
    constructor
    · intro _
      exact ⟨[], rfl, by simp⟩
    · intro h
      exact absurd h (by simp [prun])
  | succ t ih =>
    by_cases huf : (prun P s t).2 = true
    · obtain ⟨mid, hpre, hmid⟩ := ih.1 huf
      have hstep := prun_step_unfinished P s t huf
      constructor
      · -- still unfinished: the appended word is not eos
        intro h2
        rw [hstep] at h2 ⊢
        dsimp only at h2 ⊢
        simp only [Bool.and_eq_true, Bool.not_eq_true', decide_eq_false_iff_not] at h2
        obtain ⟨hwne, hmne⟩ := h2
        refine ⟨mid ++ [next_word P s (t + 1) (prun P s t).1], ?_, ?_⟩
        · rw [if_neg hmne, hpre]
          simp
        · intro w hw
          rcases List.mem_append.mp hw with hw | hw
          · exact hmid w hw
          · simp at hw
            rw [hw]
            exact hwne
      · -- newly finished: the appended word is eos
        intro h2
        rw [hstep] at h2 ⊢
        dsimp only at h2 ⊢
        have hlast : (if P.max_lengths s = t + 2 then P.eos_index
            else next_word P s (t + 1) (prun P s t).1) = P.eos_index := by
          by_cases hm : P.max_lengths s = t + 2
          · rw [if_pos hm]
          · rw [if_neg hm]
            simp only [Bool.and_eq_false_iff, Bool.not_eq_false', decide_eq_true_eq] at h2
            rcases h2 with h3 | h3
            · exact h3
            · exact absurd h3 hm
        refine ⟨mid, ?_, hmid, ?_, ?_⟩
        · rw [hlast, hpre]
        · have halive := prun_alive_lt_max P s hml t huf
          have hlen := prun_len_unfinished P s t huf
          simp only [List.length_append, List.length_cons, List.length_nil]
          omega
        · have hlen := prun_len_unfinished P s t huf
          simp only [List.length_append, List.length_cons, List.length_nil]
          omega
    · have hfr := prun_frozen P s t (by simpa using huf)
      rw [hfr]
      exact ih

theorem generate_step_sent (P : GenParams) (st : GenState) (s : ℕ) :
    ((generate_step P st).generated s, (generate_step P st).gen_len s,
      (generate_step P st).unfinished s) =
      (if st.unfinished s then
        ((st.generated s).set st.cur_len
            (if P.max_lengths s = st.cur_len + 1 then P.eos_index
             else next_word P s st.cur_len ((st.generated s).take st.cur_len)),
         (st.gen_len s + 1,
          !(decide (next_word P s st.cur_len ((st.generated s).take st.cur_len) =
              P.eos_index)) &&
            !(decide (P.max_lengths s = st.cur_len + 1))))
      else (st.generated s, (st.gen_len s, false))) := rfl

theorem set_append_replicate (pre : List ℕ) (pad w : ℕ) (L : ℕ)
    (hL : pre.length < L) :
    (pre ++ List.replicate (L - pre.length) pad).set pre.length w =
      (pre ++ [w]) ++ List.replicate (L - (pre.length + 1)) pad := by
  rw [List.set_append_right _ _ (le_refl _), Nat.sub_self]
  obtain ⟨m, hm⟩ : ∃ m, L - pre.length = m + 1 := ⟨L - pre.length - 1, by omega⟩
  rw [hm, List.replicate_succ, List.set_cons_zero]
  have hm2 : m = L - (pre.length + 1) := by omega
  rw [← hm2]
  simp

theorem GenRel_start (P : GenParams) (hL : 1 ≤ P.global_max_len) :
    GenRel P 0 (generate_start P) := by
  refine ⟨rfl, fun s hs => ⟨rfl, rfl, ?_⟩⟩
  show (List.replicate P.global_max_len P.pad_index).set 0 P.eos_index =
    [P.eos_index] ++ List.replicate (P.global_max_len - 1) P.pad_index
  obtain ⟨m, hm⟩ : ∃ m, P.global_max_len = m + 1 := ⟨P.global_max_len - 1, by omega⟩
  rw [hm, List.replicate_succ, List.set_cons_zero]
  simp

theorem GenRel_step (P : GenParams) (t : ℕ) (st : GenState)
    (hrel : GenRel P t st) (hlt : st.cur_len < P.global_max_len) :
    GenRel P (t + 1) (generate_step P st) := by
  obtain ⟨hcur, hsents⟩ := hrel
  refine ⟨by show st.cur_len + 1 = t + 1 + 1; omega, fun s hs => ?_⟩
  obtain ⟨huf, hgl, hgen⟩ := hsents s hs
  have hsent := generate_step_sent P st s
  by_cases hufb : st.unfinished s = true
  · have hpruf : (prun P s t).2 = true := by rw [← huf]; exact hufb
    rw [if_pos hufb] at hsent
    simp only [Prod.mk.injEq] at hsent
    obtain ⟨hg, hl, hu⟩ := hsent
    have hlen := prun_len_unfinished P s t hpruf
    have hpre : (st.generated s).take st.cur_len = (prun P s t).1 := by
      rw [hgen, hcur, ← hlen]
      exact List.take_left _ _
    have hstep := prun_step_unfinished P s t hpruf
    have harg : (if P.max_lengths s = st.cur_len + 1 then P.eos_index
        else next_word P s st.cur_len ((st.generated s).take st.cur_len)) =
        (if P.max_lengths s = t + 2 then P.eos_index
         else next_word P s (t + 1) (prun P s t).1) := by
      rw [hpre, hcur]
    refine ⟨?_, ?_, ?_⟩
    · rw [hu, hpre, hcur, hstep]
    · rw [hl, hgl, hstep]
      dsimp only
      simp
    · rw [hg, harg, hgen, hcur, hstep]
      dsimp only
      have hidx : (prun P s t).1.length = t + 1 := hlen
      rw [← hidx]
      rw [set_append_replicate _ _ _ _ (by rw [hidx]; omega)]
      simp
  · have hpruf : (prun P s t).2 = false := by rw [← huf]; simpa using hufb
    rw [if_neg hufb] at hsent
    simp only [Prod.mk.injEq] at hsent
    obtain ⟨hg, hl, hu⟩ := hsent
    rw [prun_frozen P s t hpruf]
    exact ⟨by rw [hu, hpruf], by rw [hl, hgl], by rw [hg, hgen]⟩

theorem generate_loop_rel (P : GenParams)
    (hml : ∀ s, s < P.bs → 2 ≤ P.max_lengths s ∧ P.max_lengths s ≤ P.global_max_len) :
    ∀ fuel st t, GenRel P t st → st.cur_len ≤ P.global_max_len →
      P.global_max_len ≤ fuel + st.cur_len →
      ∃ u, GenRel P u (generate_loop P fuel st) ∧ u + 1 ≤ P.global_max_len ∧
        ∀ s, s < P.bs → (prun P s u).2 = false := by
  intro fuel
  induction fuel with
  | zero =>
    intro st t hrel hle hfuel
    refine ⟨t, hrel, by have hc := hrel.1; omega, fun s hs => ?_⟩
    by_contra hne
    have halive := prun_alive_lt_max P s (hml s hs).1 t (by simpa using hne)
    have := (hml s hs).2
    have hcur := hrel.1
    omega
  | succ fuel ih =>
    intro st t hrel hle hfuel
    show ∃ u, GenRel P u
      (if st.cur_len < P.global_max_len then
        if (List.range P.bs).all (fun s => !(generate_step P st).unfinished s) then
          generate_step P st
        else generate_loop P fuel (generate_step P st)
      else st) ∧ _
    by_cases hcl : st.cur_len < P.global_max_len
    · rw [if_pos hcl]
      have hrel' := GenRel_step P t st hrel hcl
      by_cases hall : (List.range P.bs).all
          (fun s => !(generate_step P st).unfinished s) = true
      · rw [if_pos hall]
        refine ⟨t + 1, hrel', by have := hrel.1; omega, fun s hs => ?_⟩
        have hs' := List.all_eq_true.mp hall s (List.mem_range.mpr hs)
        have huf := (hrel'.2 s hs).1
        rw [← huf]
        simpa using hs'
      · rw [if_neg hall]
        exact ih (generate_step P st) (t + 1) hrel'
          (by show st.cur_len + 1 ≤ P.global_max_len; omega)
          (by show P.global_max_len ≤ fuel + (st.cur_len + 1); omega)
    · rw [if_neg hcl]
      refine ⟨t, hrel, by have hc := hrel.1; omega, fun s hs => ?_⟩
      by_contra hne
      have halive := prun_alive_lt_max P s (hml s hs).1 t (by simpa using hne)
      have := (hml s hs).2
      have hcur := hrel.1
      omega

/-- C5: every sequence returned by greedy/sampling `generate` (for any score
oracle and any sampling outcomes) is the synthetic start marker, a block of
non-eos tokens, the true end marker (emitted, or forced at that sentence's
maximum length), then only padding: exactly two eos occurrences, with the true
end at position `gen_len s - 1` and `gen_len s ≤ max_lengths s`. -/
theorem C5_generate_two_eos (P : GenParams)
    (hpad : P.pad_index ≠ P.eos_index)
    (hml : ∀ s, s < P.bs → 2 ≤ P.max_lengths s ∧ P.max_lengths s ≤ P.global_max_len)
    (s : ℕ) (hs : s < P.bs) :
    ∃ mid k, (generate P).1 s =
        (P.eos_index :: mid) ++ P.eos_index :: List.replicate k P.pad_index ∧
      (∀ w ∈ mid, w ≠ P.eos_index) ∧
      (generate P).2 s = mid.length + 2 ∧
      mid.length + 2 ≤ P.max_lengths s ∧
      ((generate P).1 s).count P.eos_index = 2 := by
  have hL : 2 ≤ P.global_max_len := le_trans (hml s hs).1 (hml s hs).2
  obtain ⟨u, hrel, hub, hfin⟩ := generate_loop_rel P hml P.global_max_len
    (generate_start P) 0 (GenRel_start P (by omega)) (by show 1 ≤ _; omega)
    (by show P.global_max_len ≤ P.global_max_len + 1; omega)
  obtain ⟨huf, hgl, hgen⟩ := hrel.2 s hs
  obtain ⟨mid, hpre, hmid, hlenle, hlen2⟩ :=
    (prun_wf P s (hml s hs).1 u).2 (hfin s hs)
  have hcur := hrel.1
  have hplen := prun_len_le P s u
  have hcol : (generate P).1 s = (prun P s u).1 ++
      List.replicate (min ((u + 1) - (prun P s u).1.length)
        (P.global_max_len - (prun P s u).1.length)) P.pad_index := by
    show ((generate_loop P P.global_max_len (generate_start P)).generated s).take
        (generate_loop P P.global_max_len (generate_start P)).cur_len = _
    rw [hgen, hcur, List.take_append_eq_append_take,
      List.take_of_length_le hplen, List.take_replicate]
  have hmlen : (prun P s u).1.length = mid.length + 2 := by
    rw [hpre]
    simp
  refine ⟨mid, min ((u + 1) - (prun P s u).1.length)
      (P.global_max_len - (prun P s u).1.length), ?_, hmid, ?_, ?_, ?_⟩
  · rw [hcol, hpre]
    simp
  · show (generate_loop P P.global_max_len (generate_start P)).gen_len s = _
    rw [hgl, hmlen]
  · rw [← hmlen]
    exact hlenle
  · rw [hcol, hpre]
    have hmid0 : List.count P.eos_index mid = 0 :=
      List.count_eq_zero.mpr (fun hmem => (hmid _ hmem) rfl)
    have hrep0 : ∀ n : ℕ, List.count P.eos_index (List.replicate n P.pad_index) = 0 := by
      intro n
      rw [List.count_replicate]
      simp only [beq_iff_eq, ite_eq_right_iff]
      intro hEq
      exact absurd hEq hpad
    simp [List.count_append, hmid0, hrep0]

/-- Witness for C5: one sentence, vocabulary `{0, eos}`, maximum length 3,
a score oracle preferring word 0; the output is `[eos, 0, eos]`. -/
theorem C5_generate_two_eos_witness :
    ∃ mid k,
      (generate
        { bs := 1, n_words := 2, eos_index := 1, pad_index := 2, n_layers := 1,
          src_time := 3, global_max_len := 3, max_lengths := fun _ => 3,
          score := fun _ _ w => if w = 0 then 0 else -1, sample := none }).1 0 =
        ((1 : ℕ) :: mid) ++ 1 :: List.replicate k 2 ∧
      (∀ w ∈ mid, w ≠ 1) ∧
      (generate
        { bs := 1, n_words := 2, eos_index := 1, pad_index := 2, n_layers := 1,
          src_time := 3, global_max_len := 3, max_lengths := fun _ => 3,
          score := fun _ _ w => if w = 0 then 0 else -1, sample := none }).2 0 =
        mid.length + 2 ∧
      mid.length + 2 ≤ 3 ∧
      ((generate
        { bs := 1, n_words := 2, eos_index := 1, pad_index := 2, n_layers := 1,
          src_time := 3, global_max_len := 3, max_lengths := fun _ => 3,
          score := fun _ _ w => if w = 0 then 0 else -1, sample := none }).1 0).count 1 = 2 :=
  C5_generate_two_eos _ (by decide)
    (fun s hs => ⟨by norm_num, by norm_num⟩) 0 (by decide)

theorem maskFilter_map (p : ℕ → Bool) :
    ∀ rows : List ℕ, maskFilter rows (rows.map p) = rows.filter p := by
  intro rows
  induction rows with
  | nil => rfl
  | cons a t ih =>
    show maskFilter (a :: t) (p a :: t.map p) = _
    unfold maskFilter at ih ⊢
    simp only [List.zip_cons_cons, List.filter_cons]
    cases hp : p a
    · simpa using ih
    · simpa using ih

theorem activeIds_filter (bs : ℕ) (prevUf uf : ℕ → Bool)
    (hmono : ∀ s, uf s = true → prevUf s = true) :
    (activeIds bs prevUf).filter (fun j => uf j) = activeIds bs uf := by
  unfold activeIds
  rw [List.filter_filter]
  apply List.filter_congr
  intro x hx
  cases hu : uf x
  · simp
  · simp [hmono x hu]

theorem cacheRowsInv_start (P : GenParams) : cacheRowsInv P (generate_start P) := by
  refine ⟨fun i e h => ?_, fun i e h => ?_, fun s h => rfl⟩
  · exact absurd h (by simp [generate_start, empty_cache])
  · exact absurd h (by simp [generate_start, empty_cache])

/-- After the conditional active-mask restriction, every cache entry holds
exactly the rows of the current active subset. -/
theorem generate_cache_filter_rows (P : GenParams) (st : GenState)
    (hinv : cacheRowsInv P st) :
    (∀ i e, (generate_cache_filter P st).self_entries i = some e →
      e.rows = activeIds P.bs st.unfinished) ∧
    (∀ i e, (generate_cache_filter P st).cross_entries i = some e →
      e.rows = activeIds P.bs st.unfinished) := by
  obtain ⟨hself, hcross, hmono⟩ := hinv
  have hmf : ∀ e0 : CacheEntry, e0.rows = activeIds P.bs st.prev_unfinished →
      maskFilter e0.rows ((activeIds P.bs st.prev_unfinished).map st.unfinished) =
        activeIds P.bs st.unfinished := by
    intro e0 he0
    rw [he0, maskFilter_map]
    exact activeIds_filter P.bs st.prev_unfinished st.unfinished hmono
  unfold generate_cache_filter
  by_cases hch : (List.range P.bs).any
      (fun j => st.unfinished j != st.prev_unfinished j) = true
  · rw [if_pos hch]
    constructor
    · intro i e h
      dsimp only at h
      cases hse : st.cache.self_entries i with
      | none => rw [hse] at h; exact absurd h (by simp [entry_filter])
      | some e0 =>
        rw [hse] at h
        simp only [entry_filter, Option.some.injEq] at h
        rw [← h]
        exact hmf e0 (hself i e0 hse)
    · intro i e h
      dsimp only at h
      cases hse : st.cache.cross_entries i with
      | none => rw [hse] at h; exact absurd h (by simp [entry_filter])
      | some e0 =>
        rw [hse] at h
        simp only [entry_filter, Option.some.injEq] at h
        rw [← h]
        exact hmf e0 (hcross i e0 hse)
  · rw [if_neg hch]
    have hsame : ∀ j, j < P.bs → st.unfinished j = st.prev_unfinished j := by
      intro j hj
      have := List.any_eq_true.not.mp hch
      push_neg at this
      have h2 := this j (List.mem_range.mpr hj)
      simpa using h2
    have heq : activeIds P.bs st.prev_unfinished = activeIds P.bs st.unfinished := by
      unfold activeIds
      apply List.filter_congr
      intro x hx
      rw [hsame x (List.mem_range.mp hx)]
    exact ⟨fun i e h => (hself i e h).trans heq,
      fun i e h => (hcross i e h).trans heq⟩

theorem cacheRowsInv_step (P : GenParams) (st : GenState)
    (hinv : cacheRowsInv P st) : cacheRowsInv P (generate_step P st) := by
  obtain ⟨hfself, hfcross⟩ := generate_cache_filter_rows P st hinv
  refine ⟨fun i e h => ?_, fun i e h => ?_, fun s h => ?_⟩
  · have h' : (if i < P.n_layers then
        match (generate_cache_filter P st).self_entries i with
        | some e0 => some (⟨e0.rows, e0.tlen + (st.cur_len -
            (generate_cache_filter P st).slen)⟩ : CacheEntry)
        | none => some ⟨activeIds P.bs st.unfinished,
            st.cur_len - (generate_cache_filter P st).slen⟩
      else (generate_cache_filter P st).self_entries i) = some e := h
    show e.rows = activeIds P.bs st.unfinished
    by_cases hi : i < P.n_layers
    · rw [if_pos hi] at h'
      cases hse : (generate_cache_filter P st).self_entries i with
      | none =>
        rw [hse] at h'
        simp only [Option.some.injEq] at h'
        rw [← h']
      | some e0 =>
        rw [hse] at h'
        simp only [Option.some.injEq] at h'
        rw [← h']
        exact hfself i e0 hse
    · rw [if_neg hi] at h'
      exact hfself i e h'
  · have h' : (if i < P.n_layers then
        match (generate_cache_filter P st).cross_entries i with
        | some e0 => some e0
        | none => some (⟨activeIds P.bs st.unfinished, P.src_time⟩ : CacheEntry)
      else (generate_cache_filter P st).cross_entries i) = some e := h
    show e.rows = activeIds P.bs st.unfinished
    by_cases hi : i < P.n_layers
    · rw [if_pos hi] at h'
      cases hse : (generate_cache_filter P st).cross_entries i with
      | none =>
        rw [hse] at h'
        simp only [Option.some.injEq] at h'
        rw [← h']
      | some e0 =>
        rw [hse] at h'
        simp only [Option.some.injEq] at h'
        rw [← h']
        exact hfcross i e0 hse
    · rw [if_neg hi] at h'
      exact hfcross i e h'
  · show st.unfinished s = true
    have h' : (generate_step P st).unfinished s = true := h
    by_cases hufb : st.unfinished s = true
    · exact hufb
    · exfalso
      have hsent := generate_step_sent P st s
      rw [if_neg hufb] at hsent
      simp only [Prod.mk.injEq] at hsent
      rw [hsent.2.2] at h'
      exact Bool.false_ne_true h'

theorem take_set_succ {α : Type} :
    ∀ (l : List α) (t : ℕ) (w : α), t < l.length →
      (l.set t w).take (t + 1) = l.take t ++ [w]
  | a :: tl, 0, w, _ => by simp
  | a :: tl, t + 1, w, h => by
    show (a :: tl.set t w).take (t + 2) = (a :: tl).take (t + 1) ++ [w]
    rw [List.take_cons (by omega : 0 < t + 2), List.take_cons (by omega : 0 < t + 1)]
    simp only [show t + 2 - 1 = t + 1 from by omega, show t + 1 - 1 = t from by omega]
    rw [take_set_succ tl t w (by simpa using h)]
    rfl

theorem is_done_full (b : BeamHypotheses) (x : ℚ) (h : b.is_done x = true) :
    b.n_hyp ≤ b.hyp.length := by
  unfold BeamHypotheses.is_done at h
  by_cases hlt : b.hyp.length < b.n_hyp
  · rw [if_pos hlt] at h
    exact absurd h (by simp)
  · omega

theorem topCands_length (g : ℕ → ℚ) (m k : ℕ) :
    (topCands g m k).length = min k m := by
  unfold topCands
  rw [List.length_take, List.length_insertionSort, List.length_map, List.length_range]

theorem topCands_mem (g : ℕ → ℚ) (m k : ℕ) (v : ℚ) (i : ℕ)
    (h : (v, i) ∈ topCands g m k) : i < m ∧ v = g i := by
  have h2 : (v, i) ∈ List.insertionSort candLe ((List.range m).map fun j => (g j, j)) :=
    List.mem_of_mem_take h
  have h3 : (v, i) ∈ (List.range m).map fun j => (g j, j) :=
    (List.perm_insertionSort _ _).mem_iff.mp h2
  obtain ⟨j, hj, hEq⟩ := List.mem_map.mp h3
  have hji : j = i := congrArg Prod.snd hEq
  subst hji
  exact ⟨List.mem_range.mp hj, (congrArg Prod.fst hEq).symm⟩

theorem topCands_snd_nodup (g : ℕ → ℚ) (m k : ℕ) :
    ((topCands g m k).map Prod.snd).Nodup := by
  unfold topCands
  rw [List.map_take]
  apply List.Nodup.sublist (List.take_sublist _ _)
  have hperm : (List.insertionSort candLe ((List.range m).map fun j => (g j, j))).map
      Prod.snd |>.Perm (((List.range m).map fun j => (g j, j)).map Prod.snd) :=
    (List.perm_insertionSort _ _).map _
  apply hperm.nodup_iff.mpr
  have hids : ((List.range m).map fun j => (g j, j)).map Prod.snd = List.range m := by
    rw [List.map_map]
    exact List.map_id _
  rw [hids]
  exact List.nodup_range _

/-- A nodup list of naturals all below `n` has at most `n` elements. -/
theorem nodup_lt_length_le (l : List ℕ) (n : ℕ) (hnd : l.Nodup)
    (hlt : ∀ x ∈ l, x < n) : l.length ≤ n := by
  have h1 : l.toFinset.card = l.length := List.toFinset_card_of_nodup hnd
  have h2 : l.toFinset ⊆ Finset.range n := by
    intro x hx
    rw [List.mem_toFinset] at hx
    exact Finset.mem_range.mpr (hlt x hx)
  have := Finset.card_le_card h2
  rw [h1, Finset.card_range] at this
  exact this

theorem beamWalk_pool (P : BeamParams) (s cur_len : ℕ) (gen : ℕ → List ℕ)
    (hn : 1 ≤ P.beam_size)
    (hcol : ∀ b, b < P.beam_size → colWF P cur_len (gen (s * P.beam_size + b)))
    (hcl1 : 1 ≤ cur_len) (hcl2 : cur_len + 1 ≤ P.global_max_len) :
    ∀ cands pool acc,
      (∀ v i, ((v : ℚ), i) ∈ cands → i < P.beam_size * P.n_words) →
      (∀ q ∈ pool.hyp, hypWF P q.2) → pool.hyp.length ≤ P.beam_size →
      pool.n_hyp = P.beam_size →
      (∀ q ∈ (beamWalk P s cur_len gen cands pool acc).1.hyp, hypWF P q.2) ∧
      (beamWalk P s cur_len gen cands pool acc).1.hyp.length ≤ P.beam_size ∧
      (beamWalk P s cur_len gen cands pool acc).1.n_hyp = P.beam_size := by
  intro cands
  induction cands with
  | nil => intro pool acc _ hwf hlen hnh; exact ⟨hwf, hlen, hnh⟩
  | cons c rest ih =>
    intro pool acc hidx hwf hlen hnh
    obtain ⟨value, idx⟩ := c
    have hidx' : idx < P.beam_size * P.n_words :=
      hidx value idx (List.mem_cons_self _ _)
    have hrest : ∀ v i, ((v : ℚ), i) ∈ rest → i < P.beam_size * P.n_words :=
      fun v i hv => hidx v i (List.mem_cons_of_mem _ hv)
    have hV1 : 1 ≤ P.n_words := by
      by_contra hc
      have : P.n_words = 0 := by omega
      rw [this] at hidx'
      omega
    have hbeam : idx / P.n_words < P.beam_size := by
      rw [Nat.div_lt_iff_lt_mul (by omega)]
      omega
    -- facts about the would-be added hypothesis
    obtain ⟨hclen, mid, htake⟩ := hcol (idx / P.n_words) hbeam
    have haddwf : ∀ q ∈ (pool.add
        ((gen (s * P.beam_size + idx / P.n_words)).take cur_len) value).hyp,
        hypWF P q.2 := by
      intro q hq
      rcases add_hyp_mem pool _ value q hq with hq2 | hq2
      · exact hwf q hq2
      · rw [hq2]
        obtain ⟨hm1, hm2, hm3⟩ := htake
        refine ⟨?_, ?_, mid, hm1, hm2⟩
        · show 1 ≤ ((gen (s * P.beam_size + idx / P.n_words)).take cur_len).length
          rw [hm1]
          simp
        · show ((gen (s * P.beam_size + idx / P.n_words)).take cur_len).length + 1 ≤ _
          rw [hm1]
          simp only [List.length_cons]
          omega
    have haddlen : (pool.add
        ((gen (s * P.beam_size + idx / P.n_words)).take cur_len) value).hyp.length ≤
        P.beam_size := by
      rw [← hnh]
      exact add_length_le pool _ value (by omega) (by omega)
    have haddnh : (pool.add
        ((gen (s * P.beam_size + idx / P.n_words)).take cur_len) value).n_hyp =
        P.beam_size := by
      rw [add_n_hyp]
      exact hnh
    have hstep : beamWalk P s cur_len gen ((value, idx) :: rest) pool acc =
        if idx % P.n_words = P.eos_index ∨ cur_len + 1 = P.global_max_len then
          if acc.length = P.beam_size then
            (pool.add ((gen (s * P.beam_size + idx / P.n_words)).take cur_len) value, acc)
          else
            beamWalk P s cur_len gen rest
              (pool.add ((gen (s * P.beam_size + idx / P.n_words)).take cur_len) value) acc
        else
          if (acc ++ [(value, idx % P.n_words,
              s * P.beam_size + idx / P.n_words)]).length = P.beam_size then
            (pool, acc ++ [(value, idx % P.n_words, s * P.beam_size + idx / P.n_words)])
          else
            beamWalk P s cur_len gen rest pool
              (acc ++ [(value, idx % P.n_words, s * P.beam_size + idx / P.n_words)]) := rfl
    rw [hstep]
    by_cases hcond : idx % P.n_words = P.eos_index ∨ cur_len + 1 = P.global_max_len
    · rw [if_pos hcond]
      by_cases hfull : acc.length = P.beam_size
      · rw [if_pos hfull]
        exact ⟨haddwf, haddlen, haddnh⟩
      · rw [if_neg hfull]
        exact ih _ acc hrest haddwf haddlen haddnh
    · rw [if_neg hcond]
      by_cases hfull : (acc ++ [(value, idx % P.n_words,
          s * P.beam_size + idx / P.n_words)]).length = P.beam_size
      · rw [if_pos hfull]
        exact ⟨hwf, hlen, hnh⟩
      · rw [if_neg hfull]
        exact ih _ _ hrest hwf hlen hnh

/-- At the final step every candidate is pooled and no next beam is built. -/
theorem beamWalk_final (P : BeamParams) (s cur_len : ℕ) (gen : ℕ → List ℕ)
    (hn : 1 ≤ P.beam_size) (hfin : cur_len + 1 = P.global_max_len) :
    ∀ cands pool,
      beamWalk P s cur_len gen cands pool [] =
        (addList pool (cands.map (fun c =>
          ((gen (s * P.beam_size + c.2 / P.n_words)).take cur_len, c.1))), []) := by
  intro cands
  induction cands with
  | nil => intro pool; rfl
  | cons c rest ih =>
    intro pool
    obtain ⟨value, idx⟩ := c
    have hstep : beamWalk P s cur_len gen ((value, idx) :: rest) pool [] =
        beamWalk P s cur_len gen rest
          (pool.add ((gen (s * P.beam_size + idx / P.n_words)).take cur_len) value) [] := by
      show (if idx % P.n_words = P.eos_index ∨ cur_len + 1 = P.global_max_len then
          if ([] : List (ℚ × ℕ × ℕ)).length = P.beam_size then _ else _
        else _) = _
      rw [if_pos (Or.inr hfin), if_neg (by simp; omega)]
    rw [hstep, ih]
    rfl

/-- On a non-final step the walk, fed enough continuing candidates, returns
exactly `beam_size` entries, all continuing entries of the sentence. -/
theorem beamWalk_acc (P : BeamParams) (s cur_len : ℕ) (gen : ℕ → List ℕ)
    (hfin : cur_len + 1 ≠ P.global_max_len) :
    ∀ cands pool acc,
      acc.length < P.beam_size →
      P.beam_size ≤ acc.length +
        (cands.filter (fun c => !(decide (c.2 % P.n_words = P.eos_index)))).length →
      (∀ e ∈ acc, entryOK P s e) →
      (∀ v i, ((v : ℚ), i) ∈ cands → i < P.beam_size * P.n_words) →
      (beamWalk P s cur_len gen cands pool acc).2.length = P.beam_size ∧
      (∀ e ∈ (beamWalk P s cur_len gen cands pool acc).2, entryOK P s e) := by
  intro cands
  induction cands with
  | nil =>
    intro pool acc hlt hcount _ _
    simp only [List.filter_nil, List.length_nil] at hcount
    omega
  | cons c rest ih =>
    intro pool acc hlt hcount hok hidx
    obtain ⟨value, idx⟩ := c
    have hidx' : idx < P.beam_size * P.n_words :=
      hidx value idx (List.mem_cons_self _ _)
    have hrest : ∀ v i, ((v : ℚ), i) ∈ rest → i < P.beam_size * P.n_words :=
      fun v i hv => hidx v i (List.mem_cons_of_mem _ hv)
    have hV1 : 1 ≤ P.n_words := by
      by_contra hc
      have h0 : P.n_words = 0 := by omega
      rw [h0] at hidx'
      omega
    have hbeam : idx / P.n_words < P.beam_size := by
      rw [Nat.div_lt_iff_lt_mul (by omega)]
      omega
    have hstep : beamWalk P s cur_len gen ((value, idx) :: rest) pool acc =
        if idx % P.n_words = P.eos_index ∨ cur_len + 1 = P.global_max_len then
          if acc.length = P.beam_size then
            (pool.add ((gen (s * P.beam_size + idx / P.n_words)).take cur_len) value, acc)
          else
            beamWalk P s cur_len gen rest
              (pool.add ((gen (s * P.beam_size + idx / P.n_words)).take cur_len) value) acc
        else
          if (acc ++ [(value, idx % P.n_words,
              s * P.beam_size + idx / P.n_words)]).length = P.beam_size then
            (pool, acc ++ [(value, idx % P.n_words, s * P.beam_size + idx / P.n_words)])
          else
            beamWalk P s cur_len gen rest pool
              (acc ++ [(value, idx % P.n_words, s * P.beam_size + idx / P.n_words)]) := rfl
    rw [hstep]
    by_cases heos : idx % P.n_words = P.eos_index
    · rw [if_pos (Or.inl heos), if_neg (by omega)]
      refine ih _ acc hlt ?_ hok hrest
      have hfe : ((value, idx) :: rest).filter
          (fun c => !(decide (c.2 % P.n_words = P.eos_index))) =
          rest.filter (fun c => !(decide (c.2 % P.n_words = P.eos_index))) := by
        rw [List.filter_cons]
        simp [heos]
      rw [hfe] at hcount
      exact hcount
    · rw [if_neg (by tauto)]
      have hokE : entryOK P s (value, idx % P.n_words,
          s * P.beam_size + idx / P.n_words) :=
        ⟨heos, idx / P.n_words, hbeam, rfl⟩
      have hok' : ∀ e ∈ acc ++ [(value, idx % P.n_words,
          s * P.beam_size + idx / P.n_words)], entryOK P s e := by
        intro e he
        rcases List.mem_append.mp he with he | he
        · exact hok e he
        · simp only [List.mem_cons, List.not_mem_nil, or_false] at he
          rw [he]
          exact hokE
      by_cases hfull : (acc ++ [(value, idx % P.n_words,
          s * P.beam_size + idx / P.n_words)]).length = P.beam_size
      · rw [if_pos hfull]
        exact ⟨hfull, hok'⟩
      · rw [if_neg hfull]
        refine ih _ _ ?_ ?_ hok' hrest
        · simp only [List.length_append, List.length_cons, List.length_nil] at hfull ⊢
          omega
        · have hfe : ((value, idx) :: rest).filter
              (fun c => !(decide (c.2 % P.n_words = P.eos_index))) =
              ((value, idx)) :: rest.filter
                (fun c => !(decide (c.2 % P.n_words = P.eos_index))) := by
            rw [List.filter_cons]
            simp [heos]
          rw [hfe] at hcount
          simp only [List.length_append, List.length_cons, List.length_nil] at hcount ⊢
          omega

/-- Among the `2 * beam_size` top candidates at least `beam_size` continue:
eos can appear as at most one word per source beam. -/
theorem beamCands_noneos_count (P : BeamParams) (st : BeamState) (s : ℕ)
    (hn : 1 ≤ P.beam_size) (hV : 2 ≤ P.n_words) :
    P.beam_size ≤ ((beamCands P st s).filter
      (fun c => !(decide (c.2 % P.n_words = P.eos_index)))).length := by
  set cands := beamCands P st s with hcands
  have hlen : cands.length = 2 * P.beam_size := by
    rw [hcands]
    unfold beamCands
    rw [topCands_length]
    have : 2 * P.beam_size ≤ P.beam_size * P.n_words := by nlinarith
    omega
  have hsplit := (@List.length_eq_length_filter_add (ℚ × ℕ) cands
    (fun c => !(decide (c.2 % P.n_words = P.eos_index)))).symm
  -- count the eos candidates through their beam ids
  have heos_le : (cands.filter
      (fun c => !(!(decide (c.2 % P.n_words = P.eos_index))))).length ≤ P.beam_size := by
    set eosCands := cands.filter
      (fun c => !(!(decide (c.2 % P.n_words = P.eos_index)))) with heosdef
    have hnod : (eosCands.map Prod.snd).Nodup := by
      have h1 : (cands.map Prod.snd).Nodup := topCands_snd_nodup _ _ _
      have h2 : eosCands.map Prod.snd =
          (cands.map Prod.snd).filter (fun i => !(!(decide (i % P.n_words = P.eos_index)))) := by
        rw [heosdef, List.filter_map]
        rfl
      rw [h2]
      exact h1.filter _
    have hbeams : ((eosCands.map Prod.snd).map (· / P.n_words)).Nodup := by
      apply List.Nodup.map_on ?_ hnod
      intro x hx y hy hxy
      have hxe : x % P.n_words = P.eos_index := by
        obtain ⟨c, hc, hcx⟩ := List.mem_map.mp hx
        have := List.of_mem_filter hc
        simp only [Bool.not_not, decide_eq_true_eq] at this
        rw [← hcx]
        exact this
      have hye : y % P.n_words = P.eos_index := by
        obtain ⟨c, hc, hcy⟩ := List.mem_map.mp hy
        have := List.of_mem_filter hc
        simp only [Bool.not_not, decide_eq_true_eq] at this
        rw [← hcy]
        exact this
      have hxdiv := Nat.div_add_mod x P.n_words
      have hydiv := Nat.div_add_mod y P.n_words
      rw [hxe] at hxdiv
      rw [hye] at hydiv
      rw [hxy] at hxdiv
      omega
    have hblt : ∀ z ∈ (eosCands.map Prod.snd).map (· / P.n_words), z < P.beam_size := by
      intro z hz
      obtain ⟨i, hi, hiz⟩ := List.mem_map.mp hz
      obtain ⟨c, hc, hci⟩ := List.mem_map.mp hi
      have hcmem : c ∈ cands := List.mem_of_mem_filter hc
      have := topCands_mem (beamCandValue P st s) (P.beam_size * P.n_words)
        (2 * P.beam_size) c.1 c.2 (by rw [hcands] at hcmem; exact hcmem)
      rw [← hiz, ← hci]
      rw [Nat.div_lt_iff_lt_mul (by omega)]
      exact this.1
    have := nodup_lt_length_le _ P.beam_size hbeams hblt
    simpa using this
  omega

theorem addList_length_ge (ops : List (List ℕ × ℚ)) :
    ∀ b : BeamHypotheses, 1 ≤ b.n_hyp →
      min b.n_hyp (b.hyp.length + ops.length) ≤ (addList b ops).hyp.length := by
  induction ops with
  | nil => intro b _; simp [addList]
  | cons op rest ih =>
    intro b hn
    show min b.n_hyp (b.hyp.length + (rest.length + 1)) ≤
      (addList (b.add op.1 op.2) rest).hyp.length
    have h1 := add_length_ge b op.1 op.2 hn
    have h2 := ih (b.add op.1 op.2) (by rw [add_n_hyp]; exact hn)
    rw [add_n_hyp] at h2
    omega

theorem beamCands_idx_lt (P : BeamParams) (st : BeamState) (s : ℕ) :
    ∀ v i, ((v : ℚ), i) ∈ beamCands P st s → i < P.beam_size * P.n_words :=
  fun v i h => (topCands_mem _ _ _ v i h).1

theorem beamCands_length (P : BeamParams) (st : BeamState) (s : ℕ)
    (hn : 1 ≤ P.beam_size) (hV : 2 ≤ P.n_words) :
    (beamCands P st s).length = 2 * P.beam_size := by
  unfold beamCands
  rw [topCands_length]
  have : 2 * P.beam_size ≤ P.beam_size * P.n_words := by nlinarith
  omega

/-- Writing a non-eos word at `cur_len` keeps a column well formed. -/
theorem colWF_set (P : BeamParams) (t : ℕ) (col : List ℕ) (w : ℕ)
    (hc : colWF P t col) (ht : t < P.global_max_len) (hw : w ≠ P.eos_index) :
    colWF P (t + 1) (col.set t w) := by
  obtain ⟨hlen, mid, hm1, hm2, hm3⟩ := hc
  refine ⟨by rw [List.length_set]; exact hlen, mid ++ [w], ?_, ?_, ?_⟩
  · rw [take_set_succ col t w (by omega), hm1]
    rfl
  · intro x hx
    rcases List.mem_append.mp hx with hx | hx
    · exact hm2 x hx
    · simp only [List.mem_cons, List.not_mem_nil, or_false] at hx
      rw [hx]
      exact hw
  · simp only [List.length_append, List.length_cons, List.length_nil]
    omega

theorem beamEntry_flat (P : BeamParams) (st : BeamState) (s b : ℕ)
    (hb : b < P.beam_size) :
    beamEntry P st (s * P.beam_size + b) =
      (beamSentStep P st s).2.getD b ((0 : ℚ), P.pad_index, 0) := by
  unfold beamEntry
  have h1 : (s * P.beam_size + b) / P.beam_size = s := by
    rw [Nat.mul_comm, Nat.mul_add_div (by omega), Nat.div_eq_of_lt hb]
    omega
  have h2 : (s * P.beam_size + b) % P.beam_size = b := by
    rw [Nat.mul_comm, Nat.mul_add_mod, Nat.mod_eq_of_lt hb]
  rw [h1, h2]

theorem BeamInv_start (P : BeamParams) (hn : 1 ≤ P.beam_size)
    (hL : 2 ≤ P.global_max_len) : BeamInv P (beam_start P) := by
  refine ⟨⟨le_rfl, by show (1 : ℕ) ≤ P.global_max_len; omega⟩, ?_, ?_, ?_, ?_⟩
  · intro s _
    exact ⟨by intro q hq; exact absurd hq (List.not_mem_nil q), Nat.zero_le _, rfl⟩
  · intro s _ hd
    exact absurd hd (by simp [beam_start])
  · intro s _ _ _ b _
    refine ⟨by simp [beam_start], [], ?_, by intro w hw; exact absurd hw (List.not_mem_nil w), rfl⟩
    show (((List.replicate P.global_max_len P.pad_index).set 0 P.eos_index).take 1) = _
    rw [take_set_succ _ 0 P.eos_index (by simp; omega)]
    simp
  · intro h
    exact absurd h (by show ¬(1 = P.global_max_len); omega)

/-- One loop iteration preserves the invariant. -/
theorem BeamInv_step (P : BeamParams) (st : BeamState)
    (hn : 1 ≤ P.beam_size) (hV : 2 ≤ P.n_words)
    (hInv : BeamInv P st) (hlt : st.cur_len < P.global_max_len) :
    BeamInv P (beam_step P st) := by
  obtain ⟨⟨hc1, hc2⟩, hpool, hdone, hcols, _⟩ := hInv
  have hcur : (beam_step P st).cur_len = st.cur_len + 1 := rfl
  -- per-sentence facts, by case on the done gate
  have hsent : ∀ s, s < P.bs →
      (poolWF P ((beam_step P st).hyps s)) ∧
      ((beam_step P st).done s = true →
        ((beam_step P st).hyps s).hyp.length = P.beam_size) ∧
      (st.cur_len + 1 = P.global_max_len →
        ((beam_step P st).hyps s).hyp.length = P.beam_size) ∧
      ((beam_step P st).done s = false → st.cur_len + 1 < P.global_max_len →
        ∀ b, b < P.beam_size →
          colWF P (st.cur_len + 1) ((beam_step P st).generated (s * P.beam_size + b))) := by
    intro s hs
    obtain ⟨hwf, hle, hnh⟩ := hpool s hs
    by_cases hg : (st.done s ||
        (st.hyps s).is_done ((beamCands P st s).headD (0, 0)).1) = true
    · -- done gate fired: pool untouched, placeholder entries, flag set
      have hp1 : (beam_step P st).hyps s = st.hyps s := by
        show (beamSentStep P st s).1 = _
        unfold beamSentStep
        rw [if_pos hg]
      have hfull : (st.hyps s).hyp.length = P.beam_size := by
        rcases Bool.or_eq_true_iff.mp hg with hd | hd
        · exact hdone s hs hd
        · have := is_done_full _ _ hd
          omega
      have hd1 : (beam_step P st).done s = true := by
        show (st.done s || _) = true
        exact hg
      refine ⟨by rw [hp1]; exact hpool s hs, fun _ => by rw [hp1]; exact hfull,
        fun _ => by rw [hp1]; exact hfull, fun hd2 _ _ _ => ?_⟩
      rw [hd1] at hd2
      exact absurd hd2 (by simp)
    · -- live sentence: the candidate walk runs
      have hg' : (st.done s ||
          (st.hyps s).is_done ((beamCands P st s).headD (0, 0)).1) = false := by
        revert hg
        cases st.done s || (st.hyps s).is_done ((beamCands P st s).headD (0, 0)).1
        · intro _; rfl
        · intro h; exact absurd rfl h
      have hds : st.done s = false := by
        rcases Bool.or_eq_false_iff.mp hg' with ⟨h1, _⟩
        exact h1
      have hcol : ∀ b, b < P.beam_size →
          colWF P st.cur_len (st.generated (s * P.beam_size + b)) :=
        hcols s hs hds hlt
      have hwalk := beamWalk_pool P s st.cur_len st.generated hn hcol hc1 (by omega)
        (beamCands P st s) (st.hyps s) [] (beamCands_idx_lt P st s) hwf hle hnh
      have hp1 : (beam_step P st).hyps s =
          (beamWalk P s st.cur_len st.generated (beamCands P st s) (st.hyps s) []).1 := by
        show (beamSentStep P st s).1 = _
        unfold beamSentStep
        rw [if_neg (by rw [hg']; simp)]
      refine ⟨by rw [hp1]; exact hwalk, ?_, ?_, ?_⟩
      · -- new done flag is exactly the gate, which is false here
        intro hd2
        have : (st.done s || (st.hyps s).is_done
            ((beamCands P st s).headD (0, 0)).1) = true := hd2
        rw [hg'] at this
        exact absurd this (by simp)
      · -- final step: every candidate is pooled, filling the pool
        intro hfin
        have hwf2 := beamWalk_final P s st.cur_len st.generated hn hfin
          (beamCands P st s) (st.hyps s)
        have hge := addList_length_ge ((beamCands P st s).map (fun c =>
          ((st.generated (s * P.beam_size + c.2 / P.n_words)).take st.cur_len, c.1)))
          (st.hyps s) (by omega)
        rw [List.length_map, beamCands_length P st s hn hV] at hge
        have hle2 := hwalk.2.1
        rw [hp1, hwf2]
        rw [hwf2] at hle2
        simp only at hle2 ⊢
        omega
      · -- live next state: the walk returned a full, well-formed next beam
        intro _ hlt2 b hb
        have hnotfin : st.cur_len + 1 ≠ P.global_max_len := by omega
        have hacc := beamWalk_acc P s st.cur_len st.generated hnotfin
          (beamCands P st s) (st.hyps s) [] (by simpa using hn)
          (by
            have := beamCands_noneos_count P st s hn hV
            simpa using this)
          (by intro e he; exact absurd he (List.not_mem_nil e))
          (beamCands_idx_lt P st s)
        have hne : (beamWalk P s st.cur_len st.generated
            (beamCands P st s) (st.hyps s) []).2 ≠ [] := by
          intro h
          rw [h] at hacc
          have := hacc.1
          simp at this
          omega
        have hb2 : (beam_step P st).generated (s * P.beam_size + b) =
            (st.generated (beamEntry P st (s * P.beam_size + b)).2.2).set st.cur_len
              (beamEntry P st (s * P.beam_size + b)).2.1 := rfl
        have he1 : beamEntry P st (s * P.beam_size + b) =
            (beamWalk P s st.cur_len st.generated (beamCands P st s)
              (st.hyps s) []).2.getD b ((0 : ℚ), P.pad_index, 0) := by
          rw [beamEntry_flat P st s b hb]
          show ((beamSentStep P st s).2).getD b _ = _
          unfold beamSentStep
          rw [if_neg (by rw [hg']; simp), if_neg hne]
        have hblt : b < (beamWalk P s st.cur_len st.generated (beamCands P st s)
            (st.hyps s) []).2.length := by
          rw [hacc.1]
          exact hb
        have he2 : beamEntry P st (s * P.beam_size + b) ∈
            (beamWalk P s st.cur_len st.generated (beamCands P st s)
              (st.hyps s) []).2 := by
          rw [he1, List.getD_eq_getElem _ _ hblt]
          exact List.getElem_mem hblt
        obtain ⟨hweos, b', hb', hsrc⟩ := hacc.2 _ he2
        rw [hb2, hsrc]
        exact colWF_set P st.cur_len _ _ (hcol b' hb') hlt hweos
  refine ⟨⟨by omega, by omega⟩, fun s hs => (hsent s hs).1,
    fun s hs => (hsent s hs).2.1, fun s hs => (hsent s hs).2.2.2,
    fun hfin s hs => (hsent s hs).2.2.1 hfin⟩

/-- With enough fuel the loop exits with the invariant and every pool full. -/
theorem beam_loop_post (P : BeamParams) (hn : 1 ≤ P.beam_size)
    (hV : 2 ≤ P.n_words) :
    ∀ fuel st, BeamInv P st → P.global_max_len ≤ st.cur_len + fuel →
      BeamInv P (beam_loop P fuel st) ∧
      (∀ s, s < P.bs → ((beam_loop P fuel st).hyps s).hyp.length = P.beam_size) := by
  intro fuel
  induction fuel with
  | zero =>
    intro st hInv hfuel
    have hc2 := hInv.1.2
    have hc6 := hInv.2.2.2.2
    exact ⟨hInv, hc6 (by omega)⟩
  | succ fuel ih =>
    intro st hInv hfuel
    have hunf : beam_loop P (fuel + 1) st =
        if st.cur_len < P.global_max_len then
          if (List.range P.bs).all (fun s => (beam_step P st).done s) then beam_step P st
          else beam_loop P fuel (beam_step P st)
        else st := rfl
    rw [hunf]
    by_cases hlt : st.cur_len < P.global_max_len
    · have hstep := BeamInv_step P st hn hV hInv hlt
      rw [if_pos hlt]
      by_cases hall : (List.range P.bs).all (fun s => (beam_step P st).done s) = true
      · rw [if_pos hall]
        refine ⟨hstep, fun s hs => ?_⟩
        have hd : (beam_step P st).done s = true :=
          List.all_eq_true.mp hall s (List.mem_range.mpr hs)
        exact hstep.2.2.1 s hs hd
      · rw [if_neg hall]
        exact ih (beam_step P st) hstep (by show _ ≤ st.cur_len + 1 + fuel; omega)
    · rw [if_neg hlt]
      have hc2 := hInv.1.2
      exact ⟨hInv, hInv.2.2.2.2 (by omega)⟩

theorem sorted_hyps_length (b : BeamHypotheses) :
    (sorted_hyps b).length = b.hyp.length := by
  unfold sorted_hyps
  rw [List.length_map, List.length_insertionSort]

theorem sorted_hyps_mem (b : BeamHypotheses) (h : List ℕ) (hm : h ∈ sorted_hyps b) :
    ∃ q ∈ b.hyp, q.2 = h := by
  unfold sorted_hyps at hm
  obtain ⟨q, hq, hqh⟩ := List.mem_map.mp hm
  exact ⟨q, (List.perm_insertionSort _ _).mem_iff.mp hq, hqh⟩

/-- C1 counterexample: in the concrete run `exBeam` the decoded beam column
is `[eos, eos]` (the synthetic start marker plus the appended end marker): it
carries two end-of-sequence markers, not exactly one. -/
theorem C1_counterexample :
    (generate_beam exBeam).1 0 0 = [1, 1] ∧
    ((generate_beam exBeam).1 0 0).count exBeam.eos_index = 2 := by
  constructor
  · decide
  · decide

/-- C1 amended: each decoded beam column decomposes as the synthetic start
marker, the eos-free hypothesis body, the appended end marker, then trailing
padding; it therefore carries exactly two end markers (the start marker plus
the true end marker, as the source's own assert counts), and the true length
(body plus both markers) is at most the configured maximum length. -/
theorem C1_beam_output_markers (P : BeamParams)
    (hn : 1 ≤ P.beam_size) (hV : 2 ≤ P.n_words) (hL : 2 ≤ P.global_max_len)
    (hpe : P.pad_index ≠ P.eos_index) (i k : ℕ) (hi : i < P.bs)
    (hk : k < P.beam_size) :
    ∃ mid padlen,
      (generate_beam P).1 i k =
        ((P.eos_index :: mid) ++ [P.eos_index]) ++
          List.replicate padlen P.pad_index ∧
      (∀ w ∈ mid, w ≠ P.eos_index) ∧
      ((generate_beam P).1 i k).count P.eos_index = 2 ∧
      mid.length + 2 ≤ P.global_max_len := by
  have hpost := beam_loop_post P hn hV P.global_max_len (beam_start P)
    (BeamInv_start P hn hL)
    (by show P.global_max_len ≤ 1 + P.global_max_len; omega)
  have hfull := hpost.2 i hi
  have hwf := (hpost.1.2.1 i hi).1
  have hk2 : k < (sorted_hyps ((beam_loop P P.global_max_len
      (beam_start P)).hyps i)).length := by
    rw [sorted_hyps_length, hfull]
    exact hk
  have hmem : (sorted_hyps ((beam_loop P P.global_max_len
      (beam_start P)).hyps i)).getD k [] ∈
      sorted_hyps ((beam_loop P P.global_max_len (beam_start P)).hyps i) := by
    rw [List.getD_eq_getElem _ _ hk2]
    exact List.getElem_mem hk2
  obtain ⟨q, hq, hqh⟩ := sorted_hyps_mem _ _ hmem
  have hhwf : hypWF P ((sorted_hyps ((beam_loop P P.global_max_len
      (beam_start P)).hyps i)).getD k []) := by
    rw [← hqh]
    exact hwf q hq
  obtain ⟨hlen1, hlen2, mid, hmid, hmide⟩ := hhwf
  have hcol : (generate_beam P).1 i k =
      ((sorted_hyps ((beam_loop P P.global_max_len (beam_start P)).hyps i)).getD
          k [] ++ [P.eos_index]) ++
        List.replicate
          ((((List.range P.bs).map (beam_tgt_len P (beam_loop P P.global_max_len
              (beam_start P)))).foldr max 0) -
            (((sorted_hyps ((beam_loop P P.global_max_len
              (beam_start P)).hyps i)).getD k []).length + 1))
          P.pad_index := rfl
  have hmnot : P.eos_index ∉ mid := fun hmm => hmide _ hmm rfl
  refine ⟨mid,
    (((List.range P.bs).map (beam_tgt_len P (beam_loop P P.global_max_len
        (beam_start P)))).foldr max 0) -
      (((sorted_hyps ((beam_loop P P.global_max_len
        (beam_start P)).hyps i)).getD k []).length + 1),
    ?_, hmide, ?_, ?_⟩
  · rw [hcol, hmid]
  · rw [hcol, hmid]
    rw [List.count_append, List.count_append, List.count_cons_self,
      List.count_eq_zero.mpr hmnot, List.count_replicate]
    simp [hpe]
  · rw [hmid] at hlen2
    simp only [List.length_cons] at hlen2
    omega

/-- Witness for C1's amended theorem at the concrete run `exBeam`. -/
theorem C1_beam_output_markers_witness :
    ∃ mid padlen,
      (generate_beam exBeam).1 0 0 =
        ((exBeam.eos_index :: mid) ++ [exBeam.eos_index]) ++
          List.replicate padlen exBeam.pad_index ∧
      (∀ w ∈ mid, w ≠ exBeam.eos_index) ∧
      ((generate_beam exBeam).1 0 0).count exBeam.eos_index = 2 ∧
      mid.length + 2 ≤ exBeam.global_max_len :=
  C1_beam_output_markers exBeam (by decide) (by decide) (by decide) (by decide)
    0 0 (by decide) (by decide)

/-- C4: at every loop iteration of `generate`, once the conditional
active-mask restriction has run (it fires exactly when the mask changed),
every cached key/value entry of every layer — self-attention and
cross-attention alike — holds exactly the rows of the current active subset,
so the cache stays index-aligned with the shrinking batch consumed by the
following incremental decoder pass. -/
theorem C4_active_mask_cache_refilter (P : GenParams) (k : ℕ) :
    (∀ i e, (generate_cache_filter P (gen_iter P k)).self_entries i = some e →
      e.rows = activeIds P.bs (gen_iter P k).unfinished) ∧
    (∀ i e, (generate_cache_filter P (gen_iter P k)).cross_entries i = some e →
      e.rows = activeIds P.bs (gen_iter P k).unfinished) := by
  have hinv : cacheRowsInv P (gen_iter P k) := by
    induction k with
    | zero => exact cacheRowsInv_start P
    | succ k ih => exact cacheRowsInv_step P _ ih
  exact generate_cache_filter_rows P _ hinv

/-- Witness for C4 after one concrete iteration: the surviving self-attention
entry holds exactly the active row `0`. -/
theorem C4_active_mask_cache_refilter_witness :
    (CacheEntry.mk [0] 1).rows = activeIds exGen.bs (gen_iter exGen 1).unfinished :=
  (C4_active_mask_cache_refilter exGen 1).1 0 ⟨[0], 1⟩ rfl

/-- C6 counterexample: in the concrete run `exGen`, at the second iteration
(`cur_len = 2`) the loop passes `generated[:cur_len]` — a token batch of two
time steps — to `fwd` while the cache already holds one step
(`slen = 1`): the already-processed prefix is *not* excluded by the caller
(it is sliced off inside `fwd` instead). -/
theorem C6_counterexample :
    (gen_iter exGen 1).cur_len = 2 ∧ (gen_iter exGen 1).cache.slen = 1 :=
  ⟨rfl, rfl⟩

/-- C6 amended: at every iteration the caller passes the full prefix
(`cur_len` time steps) while `slen = cur_len - 1` of them are already
cached; `fwd` slices the cached prefix off internally, and the returned
hidden-state time dimension equals input length minus accumulated length
(`cur_len - slen = 1` new step), never the full cached length. -/
theorem C6_fwd_output_new_steps (P : GenParams) (k : ℕ) :
    (gen_iter P k).cache.slen + 1 = (gen_iter P k).cur_len ∧
    (fwd_cache P.n_layers (gen_iter P k).cur_len
        (activeIds P.bs (gen_iter P k).unfinished) P.src_time
        (generate_cache_filter P (gen_iter P k))).2 =
      (gen_iter P k).cur_len - (gen_iter P k).cache.slen ∧
    (gen_iter P k).cur_len - (gen_iter P k).cache.slen = 1 := by
  have hfs : ∀ st, (generate_cache_filter P st).slen = st.cache.slen := by
    intro st
    unfold generate_cache_filter
    split <;> rfl
  have h1 : ∀ m, (gen_iter P m).cache.slen + 1 = (gen_iter P m).cur_len := by
    intro m
    induction m with
    | zero => rfl
    | succ m ih =>
      show (fwd_cache P.n_layers (gen_iter P m).cur_len
          (activeIds P.bs (gen_iter P m).unfinished) P.src_time
          (generate_cache_filter P (gen_iter P m))).1.slen + 1 =
        (gen_iter P m).cur_len + 1
      show (generate_cache_filter P (gen_iter P m)).slen +
          ((gen_iter P m).cur_len - (generate_cache_filter P (gen_iter P m)).slen) + 1 =
        (gen_iter P m).cur_len + 1
      rw [hfs]
      omega
  refine ⟨h1 k, ?_, by have := h1 k; omega⟩
  show (gen_iter P k).cur_len - (generate_cache_filter P (gen_iter P k)).slen =
    (gen_iter P k).cur_len - (gen_iter P k).cache.slen
  rw [hfs]

theorem orderedInsert_map_rel {α β : Type} (r : α → α → Prop) (r2 : β → β → Prop)
    [DecidableRel r] [DecidableRel r2] (f : α → β)
    (hf : ∀ a b, r2 (f a) (f b) ↔ r a b) (a : α) :
    ∀ l, List.orderedInsert r2 (f a) (l.map f) = (List.orderedInsert r a l).map f := by
  intro l
  induction l with
  | nil => rfl
  | cons b l ih =>
    rw [List.map_cons, List.orderedInsert, List.orderedInsert]
    by_cases h : r a b
    · rw [if_pos ((hf a b).mpr h), if_pos h, List.map_cons, List.map_cons]
    · rw [if_neg (fun hc => h ((hf a b).mp hc)), if_neg h, List.map_cons, ih]

theorem insertionSort_map_rel {α β : Type} (r : α → α → Prop) (r2 : β → β → Prop)
    [DecidableRel r] [DecidableRel r2] (f : α → β)
    (hf : ∀ a b, r2 (f a) (f b) ↔ r a b) :
    ∀ l, List.insertionSort r2 (l.map f) = (List.insertionSort r l).map f := by
  intro l
  induction l with
  | nil => rfl
  | cons a l ih =>
    rw [List.map_cons, List.insertionSort, List.insertionSort, ih,
      orderedInsert_map_rel r r2 f hf]

/-- Adding a common offset to every candidate value permutes nothing: topk on
shifted scores is the shifted topk. -/
theorem topCands_shift (g : ℕ → ℚ) (c : ℚ) (m k : ℕ) :
    topCands (fun i => g i + c) m k =
      (topCands g m k).map (fun p => (p.1 + c, p.2)) := by
  unfold topCands
  rw [List.map_take]
  congr 1
  have hbase : (List.range m).map (fun i => (g i + c, i)) =
      ((List.range m).map (fun i => (g i, i))).map (fun p => (p.1 + c, p.2)) := by
    rw [List.map_map]
    rfl
  rw [hbase]
  refine insertionSort_map_rel candLe candLe (fun p => (p.1 + c, p.2)) ?_ _
  intro a b
  unfold candLe
  constructor
  · rintro (h | ⟨h1, h2⟩)
    · exact Or.inl (by dsimp only at h; linarith)
    · exact Or.inr ⟨by dsimp only at h1; linarith, h2⟩
  · rintro (h | ⟨h1, h2⟩)
    · exact Or.inl (by dsimp only; linarith)
    · exact Or.inr ⟨by dsimp only; rw [h1], h2⟩

theorem topCands_congr (g g' : ℕ → ℚ) (m k : ℕ) (h : ∀ i, i < m → g i = g' i) :
    topCands g m k = topCands g' m k := by
  unfold topCands
  congr 2
  apply List.map_congr_left
  intro i hi
  rw [h i (List.mem_range.mp hi)]

theorem topCands_headD (g : ℕ → ℚ) (m k1 k2 : ℕ) (h1 : 1 ≤ k1) (h2 : 1 ≤ k2) :
    (topCands g m k1).headD (0, 0) = (topCands g m k2).headD (0, 0) := by
  unfold topCands
  cases hs : List.insertionSort candLe ((List.range m).map fun i => (g i, i)) with
  | nil => simp
  | cons a l =>
    obtain ⟨k1', rfl⟩ : ∃ j, k1 = j + 1 := ⟨k1 - 1, by omega⟩
    obtain ⟨k2', rfl⟩ : ∃ j, k2 = j + 1 := ⟨k2 - 1, by omega⟩
    rfl

theorem next_word_greedy (P : GenParams) (hg : P.sample = none) (s t : ℕ)
    (pre : List ℕ) :
    next_word P s t pre = ((topCands (P.score s pre) P.n_words 1).headD (0, 0)).2 := by
  unfold next_word
  rw [hg]

/-- Inserting into an empty one-slot pool stores exactly that hypothesis. -/
theorem add_snd_empty (b : BeamHypotheses) (h : List ℕ) (slp : ℚ)
    (hn : b.n_hyp = 1) (hb : b.hyp = []) :
    (b.add h slp).hyp.map Prod.snd = [h] := by
  unfold BeamHypotheses.add
  rw [hb, hn]
  have hcond : ([] : List (ℚ × List ℕ)).length < 1 ∨
      b.worst_score < slp / b.lengthNorm h.length := Or.inl (by simp)
  rw [if_pos hcond]
  have hcond2 : ¬ (1 < (([] : List (ℚ × List ℕ)) ++
      [(slp / b.lengthNorm h.length, h)]).length) := by simp
  rw [if_neg hcond2]
  rfl

/-- Re-adding the same token sequence to a full one-slot pool holding it
leaves the stored tokens unchanged, whether or not the score wins. -/
theorem add_snd_single (b : BeamHypotheses) (h : List ℕ) (slp : ℚ)
    (hn : b.n_hyp = 1) (hb : b.hyp.map Prod.snd = [h]) :
    (b.add h slp).hyp.map Prod.snd = [h] := by
  unfold BeamHypotheses.add
  have hlen : b.hyp.length = 1 := by
    have := congrArg List.length hb
    simpa using this
  by_cases hc : b.hyp.length < b.n_hyp ∨ b.worst_score < slp / b.lengthNorm h.length
  · rw [if_pos hc]
    have hlen2 : (b.hyp ++ [(slp / b.lengthNorm h.length, h)]).length = 2 := by
      simp [hlen]
    by_cases hc2 : b.n_hyp < (b.hyp ++ [(slp / b.lengthNorm h.length, h)]).length
    · rw [if_pos hc2]
      have hmap2 : (b.hyp ++ [(slp / b.lengthNorm h.length, h)]).map Prod.snd =
          [h, h] := by
        rw [List.map_append, hb]
        rfl
      rw [map_eraseIdx, hmap2]
      have hj := (evict_facts (b.hyp ++ [(slp / b.lengthNorm h.length, h)])
        (by omega)).1
      rw [hlen2] at hj
      have hj2 : ((List.insertionSort poolLe (indexedScores (b.hyp ++
          [(slp / b.lengthNorm h.length, h)]))).headD (0, 0)).2 = 0 ∨
          ((List.insertionSort poolLe (indexedScores (b.hyp ++
          [(slp / b.lengthNorm h.length, h)]))).headD (0, 0)).2 = 1 := by omega
      rcases hj2 with hj2 | hj2 <;> rw [hj2] <;> rfl
    · exact absurd (show b.n_hyp <
        (b.hyp ++ [(slp / b.lengthNorm h.length, h)]).length by omega) hc2
  · rw [if_neg hc]
    exact hb

theorem BRel9_start (Pg : GenParams) (ln : ℕ → ℚ) (hL : 1 ≤ Pg.global_max_len) :
    BRel9 Pg 0 (beam_start (beamOf Pg ln)) := by
  refine ⟨rfl, fun s hs => ⟨rfl, rfl, fun _ => ⟨rfl, rfl, ?_⟩, fun h => ?_⟩⟩
  · show (List.replicate Pg.global_max_len Pg.pad_index).set 0 Pg.eos_index =
      [Pg.eos_index] ++ List.replicate (Pg.global_max_len - 1) Pg.pad_index
    obtain ⟨m, hm⟩ : ∃ m, Pg.global_max_len = m + 1 := ⟨Pg.global_max_len - 1, by omega⟩
    rw [hm, List.replicate_succ, List.set_cons_zero]
    simp
  · exact absurd h (by simp [prun])

/-- One `generate_beam` iteration with `beam_size = 1` and early stopping
tracks the greedy anchor. -/
theorem BRel9_step (Pg : GenParams) (ln : ℕ → ℚ)
    (hV2 : 2 ≤ Pg.n_words) (hml : ∀ s, Pg.max_lengths s = Pg.global_max_len)
    (hgreedy : Pg.sample = none) (t : ℕ) (st : BeamState)
    (hrel : BRel9 Pg t st) (hlt : st.cur_len < Pg.global_max_len) :
    BRel9 Pg (t + 1) (beam_step (beamOf Pg ln) st) := by
  obtain ⟨hcur, hsents⟩ := hrel
  refine ⟨by show st.cur_len + 1 = t + 2; omega, fun s hs => ?_⟩
  obtain ⟨hnh, hes, halive, hfrozen⟩ := hsents s hs
  by_cases hA : (prun Pg s t).2 = true
  · -- the greedy sentence is alive: the walk mirrors the arg-max pick
    obtain ⟨hdone, hpool, hgen⟩ := halive hA
    have hplen : (prun Pg s t).1.length = t + 1 := prun_len_unfinished Pg s t hA
    have hpre_take : (st.generated s).take st.cur_len = (prun Pg s t).1 := by
      rw [hgen, hcur, ← hplen]
      exact List.take_left _ _
    -- the two top candidates
    have hT2len : (topCands (Pg.score s (prun Pg s t).1) Pg.n_words 2).length = 2 := by
      rw [topCands_length]
      omega
    obtain ⟨p1, p2, hT2⟩ : ∃ p1 p2,
        topCands (Pg.score s (prun Pg s t).1) Pg.n_words 2 = [p1, p2] := by
      cases hT : topCands (Pg.score s (prun Pg s t).1) Pg.n_words 2 with
      | nil => rw [hT] at hT2len; simp at hT2len
      | cons a l =>
        cases l with
        | nil => rw [hT] at hT2len; simp at hT2len
        | cons b l2 =>
          cases l2 with
          | nil => exact ⟨a, b, rfl⟩
          | cons cc l3 => rw [hT] at hT2len; simp at hT2len
    have hp1mem : (p1.1, p1.2) ∈ topCands (Pg.score s (prun Pg s t).1) Pg.n_words 2 := by
      rw [hT2]
      exact List.mem_cons_self _ _
    have hp2mem : (p2.1, p2.2) ∈ topCands (Pg.score s (prun Pg s t).1) Pg.n_words 2 := by
      rw [hT2]
      exact List.mem_cons_of_mem _ (List.mem_cons_self _ _)
    have p1lt : p1.2 < Pg.n_words :=
      (topCands_mem _ _ _ p1.1 p1.2 hp1mem).1
    have p2lt : p2.2 < Pg.n_words :=
      (topCands_mem _ _ _ p2.1 p2.2 hp2mem).1
    have hmod1 : p1.2 % Pg.n_words = p1.2 := Nat.mod_eq_of_lt p1lt
    have hdiv1 : p1.2 / Pg.n_words = 0 := Nat.div_eq_of_lt p1lt
    have hmod2 : p2.2 % Pg.n_words = p2.2 := Nat.mod_eq_of_lt p2lt
    have hdiv2 : p2.2 / Pg.n_words = 0 := Nat.div_eq_of_lt p2lt
    have hpne : p1.2 ≠ p2.2 := by
      have hnodup := topCands_snd_nodup (Pg.score s (prun Pg s t).1) Pg.n_words 2
      rw [hT2] at hnodup
      have h2 : ([p1.2, p2.2] : List ℕ).Nodup := by simpa using hnodup
      rcases List.nodup_cons.mp h2 with ⟨h1, _⟩
      exact fun hEq => h1 (by rw [hEq]; exact List.mem_cons_self _ _)
    have hw : next_word Pg s (t + 1) (prun Pg s t).1 = p1.2 := by
      rw [next_word_greedy Pg hgreedy,
        topCands_headD (Pg.score s (prun Pg s t).1) Pg.n_words 1 2 (by omega) (by omega),
        hT2]
      rfl
    -- the beam candidate list is the shifted top-2
    have hcands : beamCands (beamOf Pg ln) st s =
        [(p1.1 + st.beam_scores s, p1.2), (p2.1 + st.beam_scores s, p2.2)] := by
      have h1 : beamCands (beamOf Pg ln) st s =
          topCands (beamCandValue (beamOf Pg ln) st s) Pg.n_words 2 := by
        show topCands (beamCandValue (beamOf Pg ln) st s) (1 * Pg.n_words) 2 = _
        rw [one_mul]
      rw [h1, topCands_congr (beamCandValue (beamOf Pg ln) st s)
        (fun i => Pg.score s (prun Pg s t).1 i + st.beam_scores s) Pg.n_words 2 ?_,
        topCands_shift, hT2]
      · rfl
      · intro i hi
        show Pg.score s ((st.generated (s * 1 + i / Pg.n_words)).take st.cur_len)
            (i % Pg.n_words) + st.beam_scores (s * 1 + i / Pg.n_words) = _
        rw [Nat.div_eq_of_lt hi, Nat.mod_eq_of_lt hi,
          show s * 1 + 0 = s from by omega, hpre_take]
    have hgate : (st.done s || (st.hyps s).is_done
        ((beamCands (beamOf Pg ln) st s).headD (0, 0)).1) = false := by
      rw [hdone]
      have hlt0 : (st.hyps s).hyp.length < (st.hyps s).n_hyp := by
        rw [hpool, hnh]
        decide
      have hid : (st.hyps s).is_done
          ((beamCands (beamOf Pg ln) st s).headD (0, 0)).1 = false := by
        unfold BeamHypotheses.is_done
        rw [if_pos hlt0]
      rw [hid]
      rfl
    by_cases hfin : st.cur_len + 1 = Pg.global_max_len
    · -- forced-eos final step: both candidates pooled, placeholders returned
      have hm2 : Pg.global_max_len = t + 2 := by omega
      have hprun1 : prun Pg s (t + 1) =
          ((prun Pg s t).1 ++ [Pg.eos_index], false) := by
        rw [prun_step_unfinished Pg s t hA, hml s, hm2, if_pos rfl]
        simp
      have hw3 : beamWalk (beamOf Pg ln) s st.cur_len st.generated
          [(p1.1 + st.beam_scores s, p1.2), (p2.1 + st.beam_scores s, p2.2)]
          (st.hyps s) [] =
          (((st.hyps s).add
              ((st.generated (s * 1 + p1.2 / Pg.n_words)).take st.cur_len)
              (p1.1 + st.beam_scores s)).add
            ((st.generated (s * 1 + p2.2 / Pg.n_words)).take st.cur_len)
            (p2.1 + st.beam_scores s), []) := by
        have h0 : beamWalk (beamOf Pg ln) s st.cur_len st.generated
            [(p1.1 + st.beam_scores s, p1.2), (p2.1 + st.beam_scores s, p2.2)]
            (st.hyps s) [] =
            if p1.2 % Pg.n_words = Pg.eos_index ∨
                st.cur_len + 1 = Pg.global_max_len then
              if ([] : List (ℚ × ℕ × ℕ)).length = 1 then
                ((st.hyps s).add
                  ((st.generated (s * 1 + p1.2 / Pg.n_words)).take st.cur_len)
                  (p1.1 + st.beam_scores s), [])
              else
                beamWalk (beamOf Pg ln) s st.cur_len st.generated
                  [(p2.1 + st.beam_scores s, p2.2)]
                  ((st.hyps s).add
                    ((st.generated (s * 1 + p1.2 / Pg.n_words)).take st.cur_len)
                    (p1.1 + st.beam_scores s)) []
            else
              if (([] : List (ℚ × ℕ × ℕ)) ++ [(p1.1 + st.beam_scores s,
                  p1.2 % Pg.n_words, s * 1 + p1.2 / Pg.n_words)]).length = 1 then
                (st.hyps s, ([] : List (ℚ × ℕ × ℕ)) ++ [(p1.1 + st.beam_scores s,
                  p1.2 % Pg.n_words, s * 1 + p1.2 / Pg.n_words)])
              else
                beamWalk (beamOf Pg ln) s st.cur_len st.generated
                  [(p2.1 + st.beam_scores s, p2.2)] (st.hyps s)
                  (([] : List (ℚ × ℕ × ℕ)) ++ [(p1.1 + st.beam_scores s,
                    p1.2 % Pg.n_words, s * 1 + p1.2 / Pg.n_words)]) := rfl
        rw [h0, if_pos (Or.inr hfin), if_neg (by simp)]
        have h1 : beamWalk (beamOf Pg ln) s st.cur_len st.generated
            [(p2.1 + st.beam_scores s, p2.2)]
            ((st.hyps s).add
              ((st.generated (s * 1 + p1.2 / Pg.n_words)).take st.cur_len)
              (p1.1 + st.beam_scores s)) [] =
            if p2.2 % Pg.n_words = Pg.eos_index ∨
                st.cur_len + 1 = Pg.global_max_len then
              if ([] : List (ℚ × ℕ × ℕ)).length = 1 then
                (((st.hyps s).add
                    ((st.generated (s * 1 + p1.2 / Pg.n_words)).take st.cur_len)
                    (p1.1 + st.beam_scores s)).add
                  ((st.generated (s * 1 + p2.2 / Pg.n_words)).take st.cur_len)
                  (p2.1 + st.beam_scores s), [])
              else
                beamWalk (beamOf Pg ln) s st.cur_len st.generated []
                  (((st.hyps s).add
                      ((st.generated (s * 1 + p1.2 / Pg.n_words)).take st.cur_len)
                      (p1.1 + st.beam_scores s)).add
                    ((st.generated (s * 1 + p2.2 / Pg.n_words)).take st.cur_len)
                    (p2.1 + st.beam_scores s)) []
            else
              if (([] : List (ℚ × ℕ × ℕ)) ++ [(p2.1 + st.beam_scores s,
                  p2.2 % Pg.n_words, s * 1 + p2.2 / Pg.n_words)]).length = 1 then
                ((st.hyps s).add
                  ((st.generated (s * 1 + p1.2 / Pg.n_words)).take st.cur_len)
                  (p1.1 + st.beam_scores s),
                 ([] : List (ℚ × ℕ × ℕ)) ++ [(p2.1 + st.beam_scores s,
                   p2.2 % Pg.n_words, s * 1 + p2.2 / Pg.n_words)])
              else
                beamWalk (beamOf Pg ln) s st.cur_len st.generated [] ((st.hyps s).add
                  ((st.generated (s * 1 + p1.2 / Pg.n_words)).take st.cur_len)
                  (p1.1 + st.beam_scores s))
                  (([] : List (ℚ × ℕ × ℕ)) ++ [(p2.1 + st.beam_scores s,
                    p2.2 % Pg.n_words, s * 1 + p2.2 / Pg.n_words)]) := rfl
        rw [h1, if_pos (Or.inr hfin), if_neg (by simp)]
        rfl
      have hsent2 : beamSentStep (beamOf Pg ln) st s =
          ((((st.hyps s).add
              ((st.generated (s * 1 + p1.2 / Pg.n_words)).take st.cur_len)
              (p1.1 + st.beam_scores s)).add
            ((st.generated (s * 1 + p2.2 / Pg.n_words)).take st.cur_len)
            (p2.1 + st.beam_scores s)),
           List.replicate 1 ((0 : ℚ), Pg.pad_index, 0)) := by
        unfold beamSentStep
        rw [if_neg (by rw [hgate]; simp), hcands, hw3, if_pos rfl]
        rfl
      have hhyps : (beam_step (beamOf Pg ln) st).hyps s =
          (((st.hyps s).add
              ((st.generated (s * 1 + p1.2 / Pg.n_words)).take st.cur_len)
              (p1.1 + st.beam_scores s)).add
            ((st.generated (s * 1 + p2.2 / Pg.n_words)).take st.cur_len)
            (p2.1 + st.beam_scores s)) := by
        show (beamSentStep (beamOf Pg ln) st s).1 = _
        rw [hsent2]
      have hpoolmap : ((((st.hyps s).add
          ((st.generated (s * 1 + p1.2 / Pg.n_words)).take st.cur_len)
          (p1.1 + st.beam_scores s)).add
          ((st.generated (s * 1 + p2.2 / Pg.n_words)).take st.cur_len)
          (p2.1 + st.beam_scores s)).hyp).map Prod.snd = [(prun Pg s t).1] := by
        rw [hdiv1, hdiv2, show s * 1 + 0 = s from by omega, hpre_take]
        exact add_snd_single _ _ _ (by rw [add_n_hyp]; exact hnh)
          (add_snd_empty _ _ _ hnh hpool)
      have hdec : decide (((prun Pg s t).1 ++ [Pg.eos_index]).length ≤ t + 1) =
          false := by
        rw [decide_eq_false_iff_not, List.length_append, List.length_singleton, hplen]
        omega
      refine ⟨by rw [hhyps, add_n_hyp, add_n_hyp]; exact hnh,
        by rw [hhyps, add_early_stopping, add_early_stopping]; exact hes,
        fun h => ?_, fun _ => ?_⟩
      · rw [hprun1] at h
        simp at h
      · refine ⟨?_, ?_⟩
        · rw [hhyps, hprun1]
          dsimp only
          rw [List.dropLast_concat]
          exact hpoolmap
        · show (st.done s || (st.hyps s).is_done
            ((beamCands (beamOf Pg ln) st s).headD (0, 0)).1) = _
          rw [hgate, hprun1]
          dsimp only
          rw [hdec]
    · -- not the final step
      by_cases heosw : p1.2 = Pg.eos_index
      · -- the arg-max word is eos: pool it, keep the runner-up beam
        have hprun1 : prun Pg s (t + 1) =
            ((prun Pg s t).1 ++ [Pg.eos_index], false) := by
          have hnfin2 : Pg.max_lengths s ≠ t + 2 := by
            rw [hml s]
            omega
          rw [prun_step_unfinished Pg s t hA, if_neg hnfin2, hw, heosw]
          simp
        have hcond2 : ¬(p2.2 % Pg.n_words = Pg.eos_index ∨
            st.cur_len + 1 = Pg.global_max_len) := by
          rintro (h | h)
          · rw [hmod2] at h
            exact hpne (by rw [heosw, h])
          · exact hfin h
        have hw2 : beamWalk (beamOf Pg ln) s st.cur_len st.generated
            [(p1.1 + st.beam_scores s, p1.2), (p2.1 + st.beam_scores s, p2.2)]
            (st.hyps s) [] =
            ((st.hyps s).add
              ((st.generated (s * 1 + p1.2 / Pg.n_words)).take st.cur_len)
              (p1.1 + st.beam_scores s),
             [(p2.1 + st.beam_scores s, p2.2, s)]) := by
          have h0 : beamWalk (beamOf Pg ln) s st.cur_len st.generated
              [(p1.1 + st.beam_scores s, p1.2), (p2.1 + st.beam_scores s, p2.2)]
              (st.hyps s) [] =
              if p1.2 % Pg.n_words = Pg.eos_index ∨
                  st.cur_len + 1 = Pg.global_max_len then
                if ([] : List (ℚ × ℕ × ℕ)).length = 1 then
                  ((st.hyps s).add
                    ((st.generated (s * 1 + p1.2 / Pg.n_words)).take st.cur_len)
                    (p1.1 + st.beam_scores s), [])
                else
                  beamWalk (beamOf Pg ln) s st.cur_len st.generated
                    [(p2.1 + st.beam_scores s, p2.2)]
                    ((st.hyps s).add
                      ((st.generated (s * 1 + p1.2 / Pg.n_words)).take st.cur_len)
                      (p1.1 + st.beam_scores s)) []
              else
                if (([] : List (ℚ × ℕ × ℕ)) ++ [(p1.1 + st.beam_scores s,
                    p1.2 % Pg.n_words, s * 1 + p1.2 / Pg.n_words)]).length = 1 then
                  (st.hyps s, ([] : List (ℚ × ℕ × ℕ)) ++ [(p1.1 + st.beam_scores s,
                    p1.2 % Pg.n_words, s * 1 + p1.2 / Pg.n_words)])
                else
                  beamWalk (beamOf Pg ln) s st.cur_len st.generated
                    [(p2.1 + st.beam_scores s, p2.2)] (st.hyps s)
                    (([] : List (ℚ × ℕ × ℕ)) ++ [(p1.1 + st.beam_scores s,
                      p1.2 % Pg.n_words, s * 1 + p1.2 / Pg.n_words)]) := rfl
          rw [h0, if_pos (Or.inl (by rw [hmod1]; exact heosw)), if_neg (by simp)]
          have h1 : beamWalk (beamOf Pg ln) s st.cur_len st.generated
              [(p2.1 + st.beam_scores s, p2.2)]
              ((st.hyps s).add
                ((st.generated (s * 1 + p1.2 / Pg.n_words)).take st.cur_len)
                (p1.1 + st.beam_scores s)) [] =
              if p2.2 % Pg.n_words = Pg.eos_index ∨
                  st.cur_len + 1 = Pg.global_max_len then
                if ([] : List (ℚ × ℕ × ℕ)).length = 1 then
                  (((st.hyps s).add
                      ((st.generated (s * 1 + p1.2 / Pg.n_words)).take st.cur_len)
                      (p1.1 + st.beam_scores s)).add
                    ((st.generated (s * 1 + p2.2 / Pg.n_words)).take st.cur_len)
                    (p2.1 + st.beam_scores s), [])
                else
                  beamWalk (beamOf Pg ln) s st.cur_len st.generated []
                    (((st.hyps s).add
                        ((st.generated (s * 1 + p1.2 / Pg.n_words)).take st.cur_len)
                        (p1.1 + st.beam_scores s)).add
                      ((st.generated (s * 1 + p2.2 / Pg.n_words)).take st.cur_len)
                      (p2.1 + st.beam_scores s)) []
              else
                if (([] : List (ℚ × ℕ × ℕ)) ++ [(p2.1 + st.beam_scores s,
                    p2.2 % Pg.n_words, s * 1 + p2.2 / Pg.n_words)]).length = 1 then
                  ((st.hyps s).add
                    ((st.generated (s * 1 + p1.2 / Pg.n_words)).take st.cur_len)
                    (p1.1 + st.beam_scores s),
                   ([] : List (ℚ × ℕ × ℕ)) ++ [(p2.1 + st.beam_scores s,
                     p2.2 % Pg.n_words, s * 1 + p2.2 / Pg.n_words)])
                else
                  beamWalk (beamOf Pg ln) s st.cur_len st.generated []
                    ((st.hyps s).add
                      ((st.generated (s * 1 + p1.2 / Pg.n_words)).take st.cur_len)
                      (p1.1 + st.beam_scores s))
                    (([] : List (ℚ × ℕ × ℕ)) ++ [(p2.1 + st.beam_scores s,
                      p2.2 % Pg.n_words, s * 1 + p2.2 / Pg.n_words)]) := rfl
          have hfull2 : (([] : List (ℚ × ℕ × ℕ)) ++ [(p2.1 + st.beam_scores s,
              p2.2 % Pg.n_words, s * 1 + p2.2 / Pg.n_words)]).length = 1 := rfl
          rw [h1, if_neg hcond2, if_pos hfull2, hmod2, hdiv2,
            show s * 1 + 0 = s from by omega]
          rfl
        have hsent2 : beamSentStep (beamOf Pg ln) st s =
            ((st.hyps s).add
              ((st.generated (s * 1 + p1.2 / Pg.n_words)).take st.cur_len)
              (p1.1 + st.beam_scores s),
             [(p2.1 + st.beam_scores s, p2.2, s)]) := by
          unfold beamSentStep
          rw [if_neg (by rw [hgate]; simp), hcands, hw2]
          rw [if_neg (by simp)]
        have hhyps : (beam_step (beamOf Pg ln) st).hyps s =
            (st.hyps s).add
              ((st.generated (s * 1 + p1.2 / Pg.n_words)).take st.cur_len)
              (p1.1 + st.beam_scores s) := by
          show (beamSentStep (beamOf Pg ln) st s).1 = _
          rw [hsent2]
        have hpoolmap : (((st.hyps s).add
            ((st.generated (s * 1 + p1.2 / Pg.n_words)).take st.cur_len)
            (p1.1 + st.beam_scores s)).hyp).map Prod.snd = [(prun Pg s t).1] := by
          rw [hdiv1, show s * 1 + 0 = s from by omega, hpre_take]
          exact add_snd_empty _ _ _ hnh hpool
        have hdec : decide (((prun Pg s t).1 ++ [Pg.eos_index]).length ≤ t + 1) =
            false := by
          rw [decide_eq_false_iff_not, List.length_append, List.length_singleton,
            hplen]
          omega
        refine ⟨by rw [hhyps, add_n_hyp]; exact hnh,
          by rw [hhyps, add_early_stopping]; exact hes,
          fun h => ?_, fun _ => ?_⟩
        · rw [hprun1] at h
          simp at h
        · refine ⟨?_, ?_⟩
          · rw [hhyps, hprun1]
            dsimp only
            rw [List.dropLast_concat]
            exact hpoolmap
          · show (st.done s || (st.hyps s).is_done
              ((beamCands (beamOf Pg ln) st s).headD (0, 0)).1) = _
            rw [hgate, hprun1]
            dsimp only
            rw [hdec]
      · -- the arg-max word continues: the beam extends exactly like greedy
        have hnfin2 : Pg.max_lengths s ≠ t + 2 := by
          rw [hml s]
          omega
        have hprun1 : prun Pg s (t + 1) = ((prun Pg s t).1 ++ [p1.2], true) := by
          rw [prun_step_unfinished Pg s t hA, if_neg hnfin2, hw]
          have hd1 : decide (p1.2 = Pg.eos_index) = false :=
            decide_eq_false heosw
          have hd2 : decide (Pg.max_lengths s = t + 2) = false :=
            decide_eq_false hnfin2
          rw [hd1, hd2]
          rfl
        have hcond1 : ¬(p1.2 % Pg.n_words = Pg.eos_index ∨
            st.cur_len + 1 = Pg.global_max_len) := by
          rintro (h | h)
          · rw [hmod1] at h
            exact heosw h
          · exact hfin h
        have hw1 : beamWalk (beamOf Pg ln) s st.cur_len st.generated
            [(p1.1 + st.beam_scores s, p1.2), (p2.1 + st.beam_scores s, p2.2)]
            (st.hyps s) [] =
            (st.hyps s, [(p1.1 + st.beam_scores s, p1.2, s)]) := by
          have h0 : beamWalk (beamOf Pg ln) s st.cur_len st.generated
              [(p1.1 + st.beam_scores s, p1.2), (p2.1 + st.beam_scores s, p2.2)]
              (st.hyps s) [] =
              if p1.2 % Pg.n_words = Pg.eos_index ∨
                  st.cur_len + 1 = Pg.global_max_len then
                if ([] : List (ℚ × ℕ × ℕ)).length = 1 then
                  ((st.hyps s).add
                    ((st.generated (s * 1 + p1.2 / Pg.n_words)).take st.cur_len)
                    (p1.1 + st.beam_scores s), [])
                else
                  beamWalk (beamOf Pg ln) s st.cur_len st.generated
                    [(p2.1 + st.beam_scores s, p2.2)]
                    ((st.hyps s).add
                      ((st.generated (s * 1 + p1.2 / Pg.n_words)).take st.cur_len)
                      (p1.1 + st.beam_scores s)) []
              else
                if (([] : List (ℚ × ℕ × ℕ)) ++ [(p1.1 + st.beam_scores s,
                    p1.2 % Pg.n_words, s * 1 + p1.2 / Pg.n_words)]).length = 1 then
                  (st.hyps s, ([] : List (ℚ × ℕ × ℕ)) ++ [(p1.1 + st.beam_scores s,
                    p1.2 % Pg.n_words, s * 1 + p1.2 / Pg.n_words)])
                else
                  beamWalk (beamOf Pg ln) s st.cur_len st.generated
                    [(p2.1 + st.beam_scores s, p2.2)] (st.hyps s)
                    (([] : List (ℚ × ℕ × ℕ)) ++ [(p1.1 + st.beam_scores s,
                      p1.2 % Pg.n_words, s * 1 + p1.2 / Pg.n_words)]) := rfl
          have hfull1 : (([] : List (ℚ × ℕ × ℕ)) ++ [(p1.1 + st.beam_scores s,
              p1.2 % Pg.n_words, s * 1 + p1.2 / Pg.n_words)]).length = 1 := rfl
          rw [h0, if_neg hcond1, if_pos hfull1, hmod1, hdiv1,
            show s * 1 + 0 = s from by omega]
          rfl
        have hsent2 : beamSentStep (beamOf Pg ln) st s =
            (st.hyps s, [(p1.1 + st.beam_scores s, p1.2, s)]) := by
          unfold beamSentStep
          rw [if_neg (by rw [hgate]; simp), hcands, hw1]
          rw [if_neg (by simp)]
        have hhyps : (beam_step (beamOf Pg ln) st).hyps s = st.hyps s := by
          show (beamSentStep (beamOf Pg ln) st s).1 = _
          rw [hsent2]
        have hentry : beamEntry (beamOf Pg ln) st s =
            (p1.1 + st.beam_scores s, p1.2, s) := by
          show (beamSentStep (beamOf Pg ln) st (s / 1)).2.getD (s % 1)
            ((0 : ℚ), Pg.pad_index, 0) = _
          rw [Nat.div_one, Nat.mod_one, hsent2]
          rfl
        have hgenS : (beam_step (beamOf Pg ln) st).generated s =
            ((prun Pg s t).1 ++ [p1.2]) ++
              List.replicate (Pg.global_max_len - ((prun Pg s t).1.length + 1))
                Pg.pad_index := by
          show (st.generated (beamEntry (beamOf Pg ln) st s).2.2).set st.cur_len
            (beamEntry (beamOf Pg ln) st s).2.1 = _
          rw [hentry]
          dsimp only
          rw [hgen, hcur, ← hplen,
            set_append_replicate _ _ _ _ (by rw [hplen]; omega)]
        refine ⟨by rw [hhyps]; exact hnh, by rw [hhyps]; exact hes,
          fun _ => ?_, fun h => ?_⟩
        · refine ⟨?_, by rw [hhyps]; exact hpool, ?_⟩
          · show (st.done s || (st.hyps s).is_done
              ((beamCands (beamOf Pg ln) st s).headD (0, 0)).1) = false
            exact hgate
          · rw [hgenS, hprun1]
            dsimp only
            rw [List.length_append, List.length_singleton, hplen]
        · rw [hprun1] at h
          simp at h
  · -- the greedy sentence is already frozen: the beam keeps it pooled
    have hB : (prun Pg s t).2 = false := by
      revert hA
      cases (prun Pg s t).2
      · intro _; rfl
      · intro h; exact absurd rfl h
    obtain ⟨hmap, hdoneB⟩ := hfrozen hB
    have hfr : prun Pg s (t + 1) = prun Pg s t := prun_frozen Pg s t hB
    have hlen1 : (st.hyps s).hyp.length = 1 := by
      have := congrArg List.length hmap
      simpa using this
    have hplle : (prun Pg s t).1.length ≤ t + 1 := prun_len_le Pg s t
    have hgateB : (st.done s || (st.hyps s).is_done
        ((beamCands (beamOf Pg ln) st s).headD (0, 0)).1) = true := by
      by_cases hd : (prun Pg s t).1.length ≤ t
      · rw [hdoneB, decide_eq_true hd]
        rfl
      · have hid : (st.hyps s).is_done
            ((beamCands (beamOf Pg ln) st s).headD (0, 0)).1 = true := by
          unfold BeamHypotheses.is_done
          rw [if_neg (by rw [hlen1, hnh]; omega), if_pos hes]
        rw [hid, Bool.or_true]
    have hhypsB : (beam_step (beamOf Pg ln) st).hyps s = st.hyps s := by
      show (beamSentStep (beamOf Pg ln) st s).1 = _
      unfold beamSentStep
      rw [if_pos hgateB]
    refine ⟨by rw [hhypsB]; exact hnh, by rw [hhypsB]; exact hes,
      fun h => ?_, fun _ => ?_⟩
    · rw [hfr] at h
      rw [hB] at h
      exact absurd h (by simp)
    · rw [hfr]
      refine ⟨by rw [hhypsB]; exact hmap, ?_⟩
      show (st.done s || (st.hyps s).is_done
        ((beamCands (beamOf Pg ln) st s).headD (0, 0)).1) = _
      rw [hgateB, decide_eq_true (by omega : (prun Pg s t).1.length ≤ t + 1)]

/-- With enough fuel the `beam_size = 1` loop exits still tracking `prun`,
with every greedy sentence finished. -/
theorem beam_loop_brel9 (Pg : GenParams) (ln : ℕ → ℚ)
    (hV2 : 2 ≤ Pg.n_words) (hL2 : 2 ≤ Pg.global_max_len)
    (hml : ∀ s, Pg.max_lengths s = Pg.global_max_len)
    (hgreedy : Pg.sample = none) :
    ∀ fuel st t, BRel9 Pg t st → st.cur_len ≤ Pg.global_max_len →
      Pg.global_max_len ≤ fuel + st.cur_len →
      ∃ u, BRel9 Pg u (beam_loop (beamOf Pg ln) fuel st) ∧
        ∀ s, s < Pg.bs → (prun Pg s u).2 = false := by
  intro fuel
  induction fuel with
  | zero =>
    intro st t hrel hle hfuel
    refine ⟨t, hrel, fun s hs => ?_⟩
    by_contra hne
    have halive := prun_alive_lt_max Pg s (by rw [hml s]; omega) t
      (by simpa using hne)
    rw [hml s] at halive
    have hcur := hrel.1
    omega
  | succ fuel ih =>
    intro st t hrel hle hfuel
    have hunf : beam_loop (beamOf Pg ln) (fuel + 1) st =
        if st.cur_len < Pg.global_max_len then
          if (List.range Pg.bs).all (fun s => (beam_step (beamOf Pg ln) st).done s)
          then beam_step (beamOf Pg ln) st
          else beam_loop (beamOf Pg ln) fuel (beam_step (beamOf Pg ln) st)
        else st := rfl
    rw [hunf]
    by_cases hlt : st.cur_len < Pg.global_max_len
    · rw [if_pos hlt]
      have hstep := BRel9_step Pg ln hV2 hml hgreedy t st hrel hlt
      by_cases hall : (List.range Pg.bs).all
          (fun s => (beam_step (beamOf Pg ln) st).done s) = true
      · rw [if_pos hall]
        refine ⟨t + 1, hstep, fun s hs => ?_⟩
        have hd : (beam_step (beamOf Pg ln) st).done s = true :=
          List.all_eq_true.mp hall s (List.mem_range.mpr hs)
        by_contra hne
        have halive := (hstep.2 s hs).2.2.1 (by simpa using hne)
        rw [halive.1] at hd
        exact absurd hd (by simp)
      · rw [if_neg hall]
        have hc0 := hrel.1
        have hc1 := hstep.1
        exact ih (beam_step (beamOf Pg ln) st) (t + 1) hstep (by omega) (by omega)
    · rw [if_neg hlt]
      refine ⟨t, hrel, fun s hs => ?_⟩
      by_contra hne
      have halive := prun_alive_lt_max Pg s (by rw [hml s]; omega) t
        (by simpa using hne)
      rw [hml s] at halive
      have hcur := hrel.1
      omega

/-- C9 amended: with beam width 1, greedy (arg-max, no sampling) selection, a
uniform per-sentence maximum length and `early_stopping = True`, the beam call
returns per sentence exactly the greedy output: the declared lengths agree and
the decoded tokens up to that length agree (any length normalizer). -/
theorem C9_beam1_matches_greedy (Pg : GenParams) (ln : ℕ → ℚ)
    (hV2 : 2 ≤ Pg.n_words) (hL2 : 2 ≤ Pg.global_max_len)
    (hml : ∀ s, Pg.max_lengths s = Pg.global_max_len)
    (hgreedy : Pg.sample = none) (i : ℕ) (hi : i < Pg.bs) :
    (generate_beam (beamOf Pg ln)).2 i = (generate Pg).2 i ∧
    ((generate_beam (beamOf Pg ln)).1 i 0).take ((generate_beam (beamOf Pg ln)).2 i) =
      ((generate Pg).1 i).take ((generate Pg).2 i) := by
  have hml' : ∀ s, s < Pg.bs →
      2 ≤ Pg.max_lengths s ∧ Pg.max_lengths s ≤ Pg.global_max_len :=
    fun s _ => ⟨by rw [hml s]; omega, by rw [hml s]⟩
  obtain ⟨ug, hrelg, hubg, hfing⟩ := generate_loop_rel Pg hml' Pg.global_max_len
    (generate_start Pg) 0 (GenRel_start Pg (by omega)) (by show (1 : ℕ) ≤ _; omega)
    (by show Pg.global_max_len ≤ Pg.global_max_len + 1; omega)
  obtain ⟨ub, hrelb, hfinb⟩ := beam_loop_brel9 Pg ln hV2 hL2 hml hgreedy
    Pg.global_max_len (beam_start (beamOf Pg ln)) 0 (BRel9_start Pg ln (by omega))
    (by show (1 : ℕ) ≤ _; omega)
    (by show Pg.global_max_len ≤ Pg.global_max_len + 1; omega)
  have hpr : prun Pg i ug = prun Pg i ub := by
    rcases Nat.le_total ug ub with h | h
    · exact (prun_frozen_ge Pg i ug (hfing i hi) ub h).symm
    · exact prun_frozen_ge Pg i ub (hfinb i hi) ug h
  obtain ⟨mid, hpre, hmide, hlenle, hlen2⟩ :=
    (prun_wf Pg i (by rw [hml i]; omega) ub).2 (hfinb i hi)
  obtain ⟨hufg, hglg, hgeng⟩ := hrelg.2 i hi
  obtain ⟨hnhB, hesB, _, hfrozB⟩ := hrelb.2 i hi
  obtain ⟨hmapB, _⟩ := hfrozB (hfinb i hi)
  obtain ⟨q, hq1, hq2⟩ : ∃ q,
      ((beam_loop (beamOf Pg ln) Pg.global_max_len
        (beam_start (beamOf Pg ln))).hyps i).hyp = [q] ∧
      q.2 = (prun Pg i ub).1.dropLast := by
    cases hh : ((beam_loop (beamOf Pg ln) Pg.global_max_len
        (beam_start (beamOf Pg ln))).hyps i).hyp with
    | nil => rw [hh] at hmapB; simp at hmapB
    | cons q l =>
      cases l with
      | nil =>
        rw [hh] at hmapB
        simp at hmapB
        exact ⟨q, rfl, hmapB⟩
      | cons q2 l2 => rw [hh] at hmapB; simp at hmapB
  have hsorted : sorted_hyps ((beam_loop (beamOf Pg ln) Pg.global_max_len
      (beam_start (beamOf Pg ln))).hyps i) = [q.2] := by
    unfold sorted_hyps
    rw [hq1]
    rfl
  have htgt : (generate_beam (beamOf Pg ln)).2 i = (prun Pg i ub).1.length := by
    show ((sorted_hyps ((beam_loop (beamOf Pg ln) Pg.global_max_len
      (beam_start (beamOf Pg ln))).hyps i)).map List.length).foldr max 0 + 1 = _
    rw [hsorted]
    show max q.2.length 0 + 1 = _
    rw [hq2, List.length_dropLast, Nat.max_zero]
    omega
  have hglen : (generate Pg).2 i = (prun Pg i ub).1.length := by
    show (generate_loop Pg Pg.global_max_len (generate_start Pg)).gen_len i = _
    rw [hglg, hpr]
  have hgout : ((generate Pg).1 i).take ((generate Pg).2 i) = (prun Pg i ub).1 := by
    show (((generate_loop Pg Pg.global_max_len (generate_start Pg)).generated i).take
      (generate_loop Pg Pg.global_max_len (generate_start Pg)).cur_len).take
        ((generate Pg).2 i) = _
    rw [hglen, hgeng, hrelg.1, List.take_take, hpr]
    have hminle : min (prun Pg i ub).1.length (ug + 1) = (prun Pg i ub).1.length := by
      have hple := prun_len_le Pg i ug
      rw [hpr] at hple
      omega
    rw [hminle]
    exact List.take_left _ _
  have hcol : (generate_beam (beamOf Pg ln)).1 i 0 =
      ((sorted_hyps ((beam_loop (beamOf Pg ln) Pg.global_max_len
          (beam_start (beamOf Pg ln))).hyps i)).getD 0 [] ++ [Pg.eos_index]) ++
        List.replicate
          ((((List.range Pg.bs).map (beam_tgt_len (beamOf Pg ln)
              (beam_loop (beamOf Pg ln) Pg.global_max_len
                (beam_start (beamOf Pg ln))))).foldr max 0) -
            (((sorted_hyps ((beam_loop (beamOf Pg ln) Pg.global_max_len
              (beam_start (beamOf Pg ln))).hyps i)).getD 0 []).length + 1))
          Pg.pad_index := rfl
  have hbout : ((generate_beam (beamOf Pg ln)).1 i 0).take
      ((generate_beam (beamOf Pg ln)).2 i) = (prun Pg i ub).1 := by
    rw [htgt, hcol, hsorted]
    have hgd : ([q.2] : List (List ℕ)).getD 0 [] = q.2 := rfl
    rw [hgd, hq2]
    have hlen3 : ((prun Pg i ub).1.dropLast ++ [Pg.eos_index]).length =
        (prun Pg i ub).1.length := by
      rw [List.length_append, List.length_dropLast, List.length_singleton]
      omega
    rw [← hlen3, List.take_left]
    rw [hpre]
    rw [List.dropLast_concat]
  exact ⟨by rw [htgt, hglen], by rw [hgout, hbout]⟩

/-- Witness for C9's amended theorem: the `exGen9` scores under early
stopping, where both calls return `[eos, eos]` of length 2. -/
theorem C9_beam1_matches_greedy_witness :
    (generate_beam (beamOf exGen9 (fun l => (l : ℚ)))).2 0 = (generate exGen9).2 0 ∧
    ((generate_beam (beamOf exGen9 (fun l => (l : ℚ)))).1 0 0).take
        ((generate_beam (beamOf exGen9 (fun l => (l : ℚ)))).2 0) =
      ((generate exGen9).1 0).take ((generate exGen9).2 0) :=
  C9_beam1_matches_greedy exGen9 (fun l => (l : ℚ)) (by decide) (by decide)
    (fun s => rfl) rfl 0 (by decide)

/-- C9 counterexample: on identical inputs (same dimensions, markers, maximum
length and scores), greedy decoding outputs `[eos, eos]` of length 2 while the
`beam_size = 1` beam call (with the source's default `early_stopping = False`
and a length penalty of 1) outputs `[eos, 0, 0, eos]` of length 4: the pooled
early-eos hypothesis loses to a longer, better length-normalized one that
greedy never considers. -/
theorem C9_counterexample :
    (generate exGen9).1 0 = [1, 1] ∧ (generate exGen9).2 0 = 2 ∧
    (generate_beam exBeam9).1 0 0 = [1, 0, 0, 1] ∧
    (generate_beam exBeam9).2 0 = 4 := by
  refine ⟨by decide, by decide, ?_, ?_⟩
  · set_option maxRecDepth 100000 in decide
  · set_option maxRecDepth 100000 in decide

/-- C2 counterexample: with `slen = 2`, `lengths = [1]` and causal mode
requested (a valid input, `max(lengths) = 1 ≤ 2`), the returned attention
mask is true at `(b, q, k) = (0, 1, 1)` even though the validity condition
`k < lengths[0]` fails there: the causal mask is not combined with the
validity mask. -/
theorem C2_counterexample :
    (get_masks 2 [1] true).2 0 1 1 = true ∧ ¬(1 < ([1] : List ℕ).getD 0 0) := by
  constructor
  · rfl
  · decide

/-- C2 amended: in causal mode the returned attention mask is true at
`(b, q, k)` iff `k ≤ q` alone; the validity condition `k < lengths[b]` is
carried only by the separately returned `(B, L)` validity mask (and by the
plain broadcast attention mask in non-causal mode). -/
theorem C2_causal_mask_characterization (slen : ℕ) (lengths : List ℕ) (b q k : ℕ) :
    ((get_masks slen lengths true).2 b q k = true ↔ k ≤ q) ∧
    ((get_masks slen lengths true).1 b k = true ↔ k < lengths.getD b 0) ∧
    ((get_masks slen lengths false).2 b q k = true ↔ k < lengths.getD b 0) := by
  refine ⟨?_, ?_, ?_⟩ <;> simp [get_masks]

/-- C3 counterexample: a first incremental `fwd` over one new time step with
a 3-step source encoding leaves `slen = 1` but a cross-attention cache entry
of time length `3`: the accumulated length does not equal the time length of
cross-attention entries. -/
theorem C3_counterexample :
    (fwd_cache 1 1 [0] 3 empty_cache).1.slen = 1 ∧
    ∃ e, (fwd_cache 1 1 [0] 3 empty_cache).1.cross_entries 0 = some e ∧ e.tlen ≠ 1 := by
  exact ⟨rfl, ⟨⟨[0], 3⟩, rfl, by decide⟩⟩

/-- C3 amended: after each incremental `fwd`, the shared `slen` has grown by
exactly the number of new time steps processed (which is also the output time
dimension), and it equals the time length of every *self-attention* layer
entry; cross-attention entries instead hold the fixed source time length
(newly created) or are reused verbatim. -/
theorem C3_cache_length_invariant (n_layers x_len : ℕ) (active : List ℕ)
    (src_time : ℕ) (c : Cache)
    (hsync : selfSync n_layers c) (hx : c.slen ≤ x_len) :
    (fwd_cache n_layers x_len active src_time c).1.slen =
      c.slen + (fwd_cache n_layers x_len active src_time c).2 ∧
    (fwd_cache n_layers x_len active src_time c).2 = x_len - c.slen ∧
    (∀ i, i < n_layers →
      ∃ e, (fwd_cache n_layers x_len active src_time c).1.self_entries i = some e ∧
        e.tlen = (fwd_cache n_layers x_len active src_time c).1.slen) ∧
    (∀ i, i < n_layers →
      (c.cross_entries i = none →
        (fwd_cache n_layers x_len active src_time c).1.cross_entries i =
          some ⟨active, src_time⟩) ∧
      (∀ e, c.cross_entries i = some e →
        (fwd_cache n_layers x_len active src_time c).1.cross_entries i = some e)) := by
  refine ⟨rfl, rfl, ?_, ?_⟩
  · intro i hi
    rcases hsync i hi with ⟨hnone, hzero⟩ | ⟨e, hsome, hlen⟩
    · refine ⟨⟨active, x_len - c.slen⟩, ?_, ?_⟩
      · show (if i < n_layers then _ else _) = _
        rw [if_pos hi, hnone]
      · show x_len - c.slen = c.slen + (x_len - c.slen)
        omega
    · refine ⟨⟨e.rows, e.tlen + (x_len - c.slen)⟩, ?_, ?_⟩
      · show (if i < n_layers then _ else _) = _
        rw [if_pos hi, hsome]
      · show e.tlen + (x_len - c.slen) = c.slen + (x_len - c.slen)
        omega
  · intro i hi
    constructor
    · intro hnone
      show (if i < n_layers then _ else _) = _
      rw [if_pos hi, hnone]
    · intro e hsome
      show (if i < n_layers then _ else _) = _
      rw [if_pos hi, hsome]

/-- Witness for C3's amended invariant at a concrete second step. -/
theorem C3_cache_length_invariant_witness :
    (fwd_cache 2 3 [0, 1] 4
      ⟨2, fun _ => some ⟨[0, 1], 2⟩, fun _ => some ⟨[0, 1], 4⟩⟩).1.slen =
      2 + (fwd_cache 2 3 [0, 1] 4
        ⟨2, fun _ => some ⟨[0, 1], 2⟩, fun _ => some ⟨[0, 1], 4⟩⟩).2 ∧
    (fwd_cache 2 3 [0, 1] 4
      ⟨2, fun _ => some ⟨[0, 1], 2⟩, fun _ => some ⟨[0, 1], 4⟩⟩).2 = 3 - 2 :=
  ⟨(C3_cache_length_invariant 2 3 [0, 1] 4 _
      (fun i hi => Or.inr ⟨⟨[0, 1], 2⟩, rfl, rfl⟩) (by norm_num)).1,
   (C3_cache_length_invariant 2 3 [0, 1] 4 _
      (fun i hi => Or.inr ⟨⟨[0, 1], 2⟩, rfl, rfl⟩) (by norm_num)).2.1⟩

end TransCoder

